import Mathlib

/-!
RBAC decision engine and its LRU/TTL cache.

A shallow embedding of `rbac.go`, `rbac_cache.go` and `lru.go`, followed by the
properties of the specification checked against it.

Conventions of the embedding:

* Go string types (`EntityId`, `Env`, `EndpointMethod`, `EndpointPath`,
  `AllowDeny`, `CRUD`, `MatchReason`) are `String`: the Go types admit every
  string, not only the declared constants.
* A Go interface is the sum of the types of the repository that implement it;
  a type assertion `x.(T)` with the comma-ok form is a `match` on the
  constructor.
* `time.Time` and `time.Duration` are `Int` (nanoseconds); every cache
  operation receives the clock reading `now` it would obtain from
  `time.Now()` / `time.Since`.
* `container/list` elements are named by an address; the recency list is a
  Lean list with the front (most recently used) element first.
-/

namespace Rbac

/-! ## Data model (`rbac.go`) -/

abbrev EntityId := String

structure Tag where
  Id : String
  Name : String
deriving DecidableEq, Repr

abbrev Env := String

def ENV_DEV : Env := "DEV"
def ENV_PROD : Env := "PROD"

abbrev EndpointMethod := String

def METHOD_GET : EndpointMethod := "GET"
def METHOD_POST : EndpointMethod := "POST"

abbrev EndpointPath := String

def ENDPOINT_EXAMPLE : EndpointPath := "/example"

structure MethodEndpointResource where
  Method : EndpointMethod
  Path : EndpointPath
deriving DecidableEq, Repr

structure EnvEndpointResource where
  Env : Env
  Resource : MethodEndpointResource
deriving DecidableEq, Repr

/-- The interface `Resource`: a value of one of its two implementing types. -/
inductive Resource where
  | method (m : MethodEndpointResource)
  | env (e : EnvEndpointResource)
deriving DecidableEq, Repr

abbrev AllowDeny := String

def EFFECT_ALLOW : AllowDeny := "ALLOW"
def EFFECT_DENY : AllowDeny := "DENY"

structure AllowDenyEffect where
  Effect : AllowDeny
deriving DecidableEq, Repr

/-- The interface `Effect`; `AllowDenyEffect` is its only implementing type. -/
inductive Effect where
  | allowDeny (a : AllowDenyEffect)
deriving DecidableEq, Repr

abbrev CRUD := String

def CRUD_CREATE : CRUD := "CREATE"
def CRUD_READ : CRUD := "READ"
def CRUD_UPDATE : CRUD := "UPDATE"
def CRUD_DELETE : CRUD := "DELETE"

structure CRUDAction where
  Action : CRUD
deriving DecidableEq, Repr

/-- The interface `Action`; `CRUDAction` is its only implementing type. -/
inductive Action where
  | crud (c : CRUDAction)
deriving DecidableEq, Repr

/-! ## Matchers -/

/-- Embeds `func (m MethodEndpointResource) Match(resource Resource) bool`. -/
def MethodEndpointResource.Match (m : MethodEndpointResource) (resource : Rbac.Resource) : Bool :=
  match resource with
  | .method r => m.Method == r.Method && m.Path == r.Path
  | _ => false

/-- Embeds `func (m MethodEndpointResource) String() string`. -/
def MethodEndpointResource.String (m : MethodEndpointResource) : String :=
  m.Method ++ ":" ++ m.Path

def NewMethodEndpointResource (method : EndpointMethod) (path : EndpointPath) :
    MethodEndpointResource :=
  { Method := method, Path := path }

/-- Embeds `func (e EnvEndpointResource) Match(resource Resource) bool`. -/
def EnvEndpointResource.Match (e : EnvEndpointResource) (resource : Rbac.Resource) : Bool :=
  match resource with
  | .env r => e.Env == r.Env && e.Resource == r.Resource
  | _ => false

/-- Embeds `func (e EnvEndpointResource) String() string`; `%s` on the inner resource
calls its `String` method. -/
def EnvEndpointResource.String (e : EnvEndpointResource) : String :=
  e.Env ++ ":" ++ e.Resource.String

def NewResource (env : Env) (method : EndpointMethod) (path : EndpointPath) :
    EnvEndpointResource :=
  { Env := env, Resource := NewMethodEndpointResource method path }

/-- Embeds `func (a AllowDenyEffect) Match(effect Effect) bool`. -/
def AllowDenyEffect.Match (a : AllowDenyEffect) (effect : Rbac.Effect) : Bool :=
  match effect with
  | .allowDeny e => a.Effect == e.Effect

def AllowDenyEffect.String (a : AllowDenyEffect) : String := a.Effect

def NewEffect (effect : AllowDeny) : AllowDenyEffect := { Effect := effect }

/-- Embeds `func (c CRUDAction) Match(action Action) bool`. -/
def CRUDAction.Match (c : CRUDAction) (action : Rbac.Action) : Bool :=
  match action with
  | .crud a => c.Action == a.Action

def CRUDAction.String (c : CRUDAction) : String := c.Action

def NewAction (action : CRUD) : CRUDAction := { Action := action }

/-- Method call `x.Match(y)` on a value of interface type `Resource`: dispatch on
the dynamic type of the receiver. -/
def Resource.Match (x y : Resource) : Bool :=
  match x with
  | .method m => m.Match y
  | .env e => e.Match y

/-- Method call `x.Match(y)` on a value of interface type `Effect`. -/
def Effect.Match (x y : Effect) : Bool :=
  match x with
  | .allowDeny a => a.Match y

/-- Method call `x.Match(y)` on a value of interface type `Action`. -/
def Action.Match (x y : Action) : Bool :=
  match x with
  | .crud c => c.Match y

/-! ## Statements, policies, roles -/

structure EndpointStatement where
  Resource : EnvEndpointResource
  Effect : AllowDenyEffect
  Action : CRUDAction
deriving DecidableEq, Repr

/-- Embeds `func (e EndpointStatement) String() string`. -/
def EndpointStatement.String (e : EndpointStatement) : String :=
  e.Resource.String ++ ":" ++ e.Effect.String ++ ":" ++ e.Action.String

/-- Embeds `MockStatement` of `rbac_cache_test.go`. -/
structure MockStatement where
  Action : String
deriving DecidableEq, Repr

def MockStatement.String (m : MockStatement) : String := m.Action

/-- The interface `Statement`: a value of one of its two implementing types. -/
inductive Statement where
  | endpoint (s : EndpointStatement)
  | mock (m : MockStatement)
deriving DecidableEq, Repr

/-- Method call `statement.String()` on a value of interface type `Statement`. -/
def Statement.String (s : Statement) : String :=
  match s with
  | .endpoint e => e.String
  | .mock m => m.String

def NewMockStatement (action : String) : Statement := .mock { Action := action }

structure Policy where
  Name : String
  Description : String
  Statements : List Statement
deriving DecidableEq, Repr

structure Role where
  Name : String
  Description : String
  Tags : List Tag
  Assigments : List EntityId
  Policies : List Policy
deriving DecidableEq, Repr

def NewPolicy (name description : String) (statements : List Statement) : Policy :=
  { Name := name, Description := description, Statements := statements }

def NewTag (id name : String) : Tag := { Id := id, Name := name }

def NewRole (name description : String) (tags : List Tag) (assigments : List EntityId)
    (policies : List Policy) : Role :=
  { Name := name, Description := description, Tags := tags, Assigments := assigments,
    Policies := policies }

/-- Embeds `func (r Role) IsEntityAssigned(entityId EntityId) bool`. -/
def Role.IsEntityAssigned (r : Role) (entityId : EntityId) : Bool :=
  r.Assigments.any (fun id => id == entityId)

/-- Embeds `func NewEndpointStatement(env, method, endpoint, effect) EndpointStatement`. -/
def NewEndpointStatement (env : Env) (method : EndpointMethod) (endpoint : EndpointPath)
    (effect : AllowDeny) : EndpointStatement :=
  let action := if method == METHOD_POST then CRUD_CREATE else CRUD_READ
  { Resource := NewResource env method endpoint
    Effect := NewEffect effect
    Action := NewAction action }

abbrev MatchReason := String

def MATCH_ALLOW_MATCH : MatchReason := "ALLOW_MATCH"
def MATCH_DENY_MATCH : MatchReason := "DENY_MATCH"
def MATCH_LEAST_PRIVILEGE : MatchReason := "LEAST_PRIVILEGE"

structure EndpointStatementAccessRequestResult where
  Access : Bool
  Reason : MatchReason
deriving DecidableEq, Repr

/-- Embeds `func (e EndpointStatement) Allowed(statement Statement)`.  The receiver is
`e`; inside the type assertion the argument is called `s`, and it is the effect
of `s` (the argument) that is compared with `EFFECT_ALLOW`. -/
def EndpointStatement.Allowed (e : EndpointStatement) (statement : Statement) :
    EndpointStatementAccessRequestResult :=
  match statement with
  | .endpoint s =>
    let «match» := e.Resource.Match (.env s.Resource) && e.Action.Match (.crud s.Action)
    if «match» then
      if s.Effect.Match (.allowDeny (NewEffect EFFECT_ALLOW)) then
        { Access := true, Reason := MATCH_ALLOW_MATCH }
      else
        { Access := false, Reason := MATCH_DENY_MATCH }
    else
      { Access := false, Reason := MATCH_LEAST_PRIVILEGE }
  | _ => { Access := false, Reason := MATCH_LEAST_PRIVILEGE }

/-! ## Decision engine -/

/-- The interface `UserStore`. -/
structure UserStore where
  GetRoles : EntityId → List Role

structure EndpointAuthorizationProvider where
  UserStore : UserStore

/-- The innermost loop of `IsAuthorized`,
`for _, statement := range policy.Statements`, started with the current value of
`allowed`.  `none` is the early `return false`; `some a` is the loop running to
its end with `allowed = a`.

The range variable is itself called `statement`, so inside the loop that name
no longer denotes the parameter of `IsAuthorized`: `s.Allowed(statement)`
receives the policy statement that is being visited. -/
def scanStatements : List Statement → Bool → Option Bool
  | [], allowed => some allowed
  | statement :: rest, allowed =>
    match statement with
    | .endpoint s =>
      let res := s.Allowed statement
      if !res.Access then
        if res.Reason == MATCH_DENY_MATCH then none
        else scanStatements rest allowed
      else scanStatements rest true
    | _ => scanStatements rest allowed

/-- The loop `for _, policy := range role.Policies`. -/
def scanPolicies : List Policy → Bool → Option Bool
  | [], allowed => some allowed
  | policy :: rest, allowed =>
    match scanStatements policy.Statements allowed with
    | none => none
    | some allowed' => scanPolicies rest allowed'

/-- The loop `for _, role := range roles`. -/
def scanRoles : List Role → Bool → Option Bool
  | [], allowed => some allowed
  | role :: rest, allowed =>
    match scanPolicies role.Policies allowed with
    | none => none
    | some allowed' => scanRoles rest allowed'

/-- Embeds `func (e EndpointAuthorizationProvider) IsAuthorized(entity, statement) bool`.
The parameter `statement` is not read by the body: its only textual uses are
inside the innermost loop, where the name is rebound (see `scanStatements`). -/
def EndpointAuthorizationProvider.IsAuthorized (e : EndpointAuthorizationProvider)
    (entity : EntityId) (_statement : Statement) : Bool :=
  let roles := e.UserStore.GetRoles entity
  match scanRoles roles false with
  | none => false
  | some allowed => allowed

/-- Embeds `func (u MockUserStore) GetRoles(entity EntityId) []Role`. -/
def MockUserStore : UserStore where
  GetRoles := fun entity =>
    let tag : Tag := { Id := "1", Name := "Admin" }
    let policy : Policy :=
      { Name := "AccessControl"
        Description := "Defines access control policies."
        Statements :=
          [.endpoint (NewEndpointStatement ENV_PROD METHOD_GET ENDPOINT_EXAMPLE EFFECT_ALLOW)] }
    let role : Role :=
      { Name := "Administrator"
        Description := "Admin role with all permissions."
        Tags := [tag]
        Assigments := ["entity1"]
        Policies := [policy] }
    if entity == "entity1" then [role] else []

def NewEndpointAuthorizationProvider (store : UserStore) : EndpointAuthorizationProvider :=
  { UserStore := store }

/-! ## LRU cache (`lru.go`)

The cache is used from one goroutine at a time (every operation holds
`c.lock` for its whole duration), so the embedding is sequential and the lock
is not represented. -/

structure CacheItem (K V : Type) where
  key : K
  value : V
  timestamp : Int
deriving DecidableEq, Repr

/-- A `*list.Element` of the recency list together with the `*CacheItem` stored
in its `Value`: `addr` names the element, `Value` is the current content of
the item it points to.  The index and the recency list both hold the
element; a write through the pointer (see `Element.write`) is applied to every
copy carrying the address. -/
structure Element (K V : Type) where
  addr : Nat
  Value : CacheItem K V
deriving DecidableEq, Repr

/-- Embeds `type LRUCache struct`: `items` is the Go map `map[interface{}]*list.Element`
as an association list, `list` is the `container/list` with the front first,
`nextAddr` is the address the next allocated element receives. -/
structure LRUCache (K V : Type) where
  capacity : Int
  ttl : Int
  items : List (K × Element K V)
  list : List (Element K V)
  nextAddr : Nat
deriving DecidableEq, Repr

section Cache

variable {K V : Type} [DecidableEq K]

/-- Map read `m[key]` with the comma-ok form. -/
def mapGet : List (K × Element K V) → K → Option (Element K V)
  | [], _ => none
  | (k, e) :: rest, key => if k = key then some e else mapGet rest key

/-- Built-in `delete(m, key)`. -/
def mapDelete (m : List (K × Element K V)) (key : K) : List (K × Element K V) :=
  m.filter (fun kv => decide (kv.1 ≠ key))

/-- Map write `m[key] = e`. -/
def mapSet (m : List (K × Element K V)) (key : K) (e : Element K V) :
    List (K × Element K V) :=
  (key, e) :: mapDelete m key

/-- Embeds `(*list.List).Remove(e)`: unlink the element named `e.addr`; nothing happens
when it is not in the list. -/
def listRemove (l : List (Element K V)) (e : Element K V) : List (Element K V) :=
  l.filter (fun x => decide (x.addr ≠ e.addr))

/-- Embeds `(*list.List).MoveToFront(e)`: nothing happens when the element is not in the
list (or is already the front). -/
def listMoveToFront (l : List (Element K V)) (e : Element K V) : List (Element K V) :=
  match l.find? (fun x => decide (x.addr = e.addr)) with
  | some x => x :: listRemove l e
  | none => l

/-- The assignments `item.value = value; item.timestamp = now` through the
pointer held by the element at `addr`, as seen from one holder of an element. -/
def Element.write (e : Element K V) (addr : Nat) (value : V) (timestamp : Int) :
    Element K V :=
  if e.addr = addr then
    { e with Value := { e.Value with value := value, timestamp := timestamp } }
  else e

/-- Embeds `func NewLRUCache(capacity int, ttl time.Duration) *LRUCache`. -/
def NewLRUCache (capacity : Int) (ttl : Int) : LRUCache K V :=
  { capacity := capacity, ttl := ttl, items := [], list := [], nextAddr := 0 }

/-- Embeds `func (c *LRUCache) Get(key) (value interface{}, ok bool)` at clock reading
`now`; the result `(nil, false)` is `none`, `(v, true)` is `some v`. -/
def LRUCache.Get (c : LRUCache K V) (key : K) (now : Int) : LRUCache K V × Option V :=
  match mapGet c.items key with
  | some element =>
    let item := element.Value
    if c.ttl > 0 ∧ now - item.timestamp > c.ttl then
      ({ c with list := listRemove c.list element, items := mapDelete c.items key }, none)
    else
      ({ c with list := listMoveToFront c.list element }, some item.value)
  | none => (c, none)

/-- Embeds `func (c *LRUCache) Put(key, value interface{})` at clock reading `now`. -/
def LRUCache.Put (c : LRUCache K V) (key : K) (value : V) (now : Int) : LRUCache K V :=
  match mapGet c.items key with
  | some element =>
    { c with
      list := (listMoveToFront c.list element).map (fun x => x.write element.addr value now)
      items := c.items.map (fun kv => (kv.1, kv.2.write element.addr value now)) }
  | none =>
    let c1 : LRUCache K V :=
      if (c.list.length : Int) = c.capacity then
        match c.list.getLast? with
        | some oldest =>
          { c with
            list := listRemove c.list oldest
            items := mapDelete c.items oldest.Value.key }
        | none => c
      else c
    let element : Element K V :=
      { addr := c1.nextAddr, Value := { key := key, value := value, timestamp := now } }
    { c1 with
      list := element :: c1.list
      items := mapSet c1.items key element
      nextAddr := c1.nextAddr + 1 }

/-- The loop of `ExpireItems`, `for e := c.list.Back(); e != nil; { ... }`, over
the elements still to visit, the back of the list first (`next := e.Prev()` is
read before `e` is removed, so the visit follows the list as it was). -/
def expireLoop (now : Int) : List (Element K V) → LRUCache K V → LRUCache K V
  | [], c => c
  | e :: prevs, c =>
    let item := e.Value
    if c.ttl > 0 ∧ now - item.timestamp > c.ttl then
      expireLoop now prevs
        { c with list := listRemove c.list e, items := mapDelete c.items item.key }
    else c

/-- Embeds `func (c *LRUCache) ExpireItems()` at clock reading `now`. -/
def LRUCache.ExpireItems (c : LRUCache K V) (now : Int) : LRUCache K V :=
  expireLoop now c.list.reverse c

/-- Consistency of the index with the recency list: element addresses are
distinct and already allocated, no two list elements carry the same key, the
index holds each key once, every index entry is an element of the list that
carries the entry's key, and every list element is found in the index under
its key. -/
structure LRUCache.Consistent (c : LRUCache K V) : Prop where
  addr_nodup : (c.list.map (fun e => e.addr)).Nodup
  key_nodup : (c.list.map (fun e => e.Value.key)).Nodup
  index_nodup : (c.items.map (fun kv => kv.1)).Nodup
  addr_lt : ∀ e ∈ c.list, e.addr < c.nextAddr
  index_sound : ∀ kv ∈ c.items, kv.2 ∈ c.list ∧ kv.2.Value.key = kv.1
  index_complete : ∀ e ∈ c.list, mapGet c.items e.Value.key = some e

instance LRUCache.decidableConsistent [DecidableEq V] (c : LRUCache K V) :
    Decidable c.Consistent :=
  decidable_of_iff
    ((c.list.map (fun e => e.addr)).Nodup ∧ (c.list.map (fun e => e.Value.key)).Nodup ∧
      (c.items.map (fun kv => kv.1)).Nodup ∧ (∀ e ∈ c.list, e.addr < c.nextAddr) ∧
      (∀ kv ∈ c.items, kv.2 ∈ c.list ∧ kv.2.Value.key = kv.1) ∧
      (∀ e ∈ c.list, mapGet c.items e.Value.key = some e))
    ⟨fun h => ⟨h.1, h.2.1, h.2.2.1, h.2.2.2.1, h.2.2.2.2.1, h.2.2.2.2.2⟩,
     fun h => ⟨h.addr_nodup, h.key_nodup, h.index_nodup, h.addr_lt, h.index_sound,
       h.index_complete⟩⟩

/-- The entry is expired at clock reading `now`: the test
`c.ttl > 0 && time.Since(item.timestamp) > c.ttl` of `Get` and `ExpireItems`. -/
def LRUCache.expired (c : LRUCache K V) (item : CacheItem K V) (now : Int) : Prop :=
  c.ttl > 0 ∧ now - item.timestamp > c.ttl

instance LRUCache.decidableExpired (c : LRUCache K V) (item : CacheItem K V) (now : Int) :
    Decidable (c.expired item now) := by
  unfold LRUCache.expired; infer_instance

/-- The eviction step of `Put` for a key that is not indexed: the block
`if c.list.Len() == c.capacity { ... }`. -/
def LRUCache.evictStep (c : LRUCache K V) : LRUCache K V :=
  if (c.list.length : Int) = c.capacity then
    match c.list.getLast? with
    | some oldest =>
      { c with
        list := listRemove c.list oldest
        items := mapDelete c.items oldest.Value.key }
    | none => c
  else c

/-- The caches that a program can build: `NewLRUCache` followed by any finite
sequence of `Get`, `Put` and `ExpireItems`, at any clock readings. -/
inductive LRUCache.Reachable (capacity ttl : Int) : LRUCache K V → Prop where
  | new : LRUCache.Reachable capacity ttl (NewLRUCache capacity ttl)
  | get (c : LRUCache K V) (key : K) (now : Int) :
      LRUCache.Reachable capacity ttl c → LRUCache.Reachable capacity ttl (c.Get key now).1
  | put (c : LRUCache K V) (key : K) (value : V) (now : Int) :
      LRUCache.Reachable capacity ttl c → LRUCache.Reachable capacity ttl (c.Put key value now)
  | expire (c : LRUCache K V) (now : Int) :
      LRUCache.Reachable capacity ttl c → LRUCache.Reachable capacity ttl (c.ExpireItems now)

/-- One call on the cache, with the clock reading it observes. -/
inductive CacheOp (K V : Type) where
  | get (key : K) (now : Int)
  | put (key : K) (value : V) (now : Int)
  | expire (now : Int)
deriving DecidableEq, Repr

/-- The clock reading of a call. -/
def CacheOp.now : CacheOp K V → Int
  | .get _ now => now
  | .put _ _ now => now
  | .expire now => now

/-- The call is a `Get`. -/
def CacheOp.isGet : CacheOp K V → Bool
  | .get _ _ => true
  | _ => false

/-- The cache after one call. -/
def LRUCache.step (c : LRUCache K V) : CacheOp K V → LRUCache K V
  | .get key now => (c.Get key now).1
  | .put key value now => c.Put key value now
  | .expire now => c.ExpireItems now

/-- The cache after a finite sequence of calls, made in order. -/
def LRUCache.run (c : LRUCache K V) : List (CacheOp K V) → LRUCache K V
  | [] => c
  | op :: rest => (c.step op).run rest

/-- The cache after the elements of `removed` have been unlinked, one after the
other, each with its key deleted from the index: the effect of the iterations
of `ExpireItems` that remove. -/
def LRUCache.removeAll (c : LRUCache K V) : List (Element K V) → LRUCache K V
  | [] => c
  | e :: rest =>
    LRUCache.removeAll
      { c with list := listRemove c.list e, items := mapDelete c.items e.Value.key } rest

end Cache

/-! ## Caching decision wrapper (`rbac_cache.go`) -/

/-- The interface `AuthorizationProvider`, for an implementation with internal
state `σ` (role data, a call counter, ...): `IsAuthorized` answers from the
current state and returns the state the call leaves behind. -/
structure AuthorizationProvider (σ : Type) where
  state : σ
  IsAuthorized : σ → EntityId → Statement → Bool × σ

/-- The engine `EndpointAuthorizationProvider` as an `AuthorizationProvider`: it has no
state of its own. -/
def EndpointAuthorizationProvider.toProvider (e : EndpointAuthorizationProvider) :
    AuthorizationProvider Unit :=
  { state := (), IsAuthorized := fun _ entity statement => (e.IsAuthorized entity statement, ()) }

/-- An `AuthorizationProvider` that is a fixed function of `(entity, statement)`. -/
def fixedProvider (f : EntityId → Statement → Bool) : AuthorizationProvider Unit :=
  { state := (), IsAuthorized := fun _ entity statement => (f entity statement, ()) }

/-- A test double with a call counter: it answers by `f` and counts its
invocations in its state. -/
def countingProvider (f : EntityId → Statement → Bool) (calls : Nat) :
    AuthorizationProvider Nat :=
  { state := calls, IsAuthorized := fun n entity statement => (f entity statement, n + 1) }

/-- Embeds `type EndpointAuthorizationCacheProvider struct`: `cache` is the content of
the `*LRUCache`, which holds the `bool` decisions under `string` keys. -/
structure EndpointAuthorizationCacheProvider (σ : Type) where
  cache : LRUCache String Bool
  auth : AuthorizationProvider σ

def NewEndpointAuthorizationCacheProvider {σ : Type} (cache : LRUCache String Bool)
    (auth : AuthorizationProvider σ) : EndpointAuthorizationCacheProvider σ :=
  { cache := cache, auth := auth }

/-- The wrapper with the wrapped engine replaced (or changed behind its back)
between two calls; the cache is kept. -/
def EndpointAuthorizationCacheProvider.withEngine {σ : Type}
    (e : EndpointAuthorizationCacheProvider σ) (auth2 : AuthorizationProvider σ) :
    EndpointAuthorizationCacheProvider σ :=
  { cache := e.cache, auth := auth2 }

/-- The cache key `fmt.Sprintf("%s:%s", entity, statement.String())`. -/
def cacheKey (entity : EntityId) (statement : Statement) : String :=
  entity ++ ":" ++ statement.String

/-- Embeds `func (e EndpointAuthorizationCacheProvider) IsAuthorized(entity, statement) bool`:
the returned boolean and the wrapper after the call.  `tGet` is the clock
reading inside `cache.Get`, `tPut` the one inside `cache.Put`. -/
def EndpointAuthorizationCacheProvider.IsAuthorized {σ : Type}
    (e : EndpointAuthorizationCacheProvider σ) (entity : EntityId) (statement : Statement)
    (tGet tPut : Int) : Bool × EndpointAuthorizationCacheProvider σ :=
  let key := cacheKey entity statement
  match e.cache.Get key tGet with
  | (cache1, some allowed) => (allowed, { e with cache := cache1 })
  | (cache1, none) =>
    let (allowed, state1) := e.auth.IsAuthorized e.auth.state entity statement
    (allowed, { cache := cache1.Put key allowed tPut, auth := { e.auth with state := state1 } })

/-- Embeds `MockEndpointAuthorizationProvider` of `rbac_cache_test.go`: its state is the
map `authorizedResponses`. -/
def MockEndpointAuthorizationProvider (authorizedResponses : List (String × Bool)) :
    AuthorizationProvider (List (String × Bool)) :=
  { state := authorizedResponses
    IsAuthorized := fun responses entity statement =>
      let key := entity ++ ":" ++ statement.String
      match responses.lookup key with
      | some allowed => (allowed, responses)
      | none => (false, responses) }

/-- One call of the wrapper in a run: its arguments and its two clock readings. -/
structure Call where
  entity : EntityId
  statement : Statement
  tGet : Int
  tPut : Int

/-- A finite sequence of wrapper calls, in order: the booleans returned and the
wrapper left behind. -/
def runCalls {σ : Type} (e : EndpointAuthorizationCacheProvider σ) :
    List Call → List Bool × EndpointAuthorizationCacheProvider σ
  | [] => ([], e)
  | call :: rest =>
    let r := e.IsAuthorized call.entity call.statement call.tGet call.tPut
    let rs := runCalls r.2 rest
    (r.1 :: rs.1, rs.2)

/-! ## Auxiliary definitions for the statements below -/

/-- A policy statement on which the scan of `IsAuthorized` returns `false`: an
`EndpointStatement` whose own effect is not `EFFECT_ALLOW`. -/
def Statement.stops : Statement → Bool
  | .endpoint s => s.Effect.Effect != EFFECT_ALLOW
  | _ => false

/-- A policy statement of dynamic type `EndpointStatement`. -/
def Statement.isEndpoint : Statement → Bool
  | .endpoint _ => true
  | _ => false

/-- The statement `s` matches the resource and the action of `request`: the
expression `match` of `Allowed` with receiver `s`. -/
def matchesRequest (s request : EndpointStatement) : Bool :=
  s.Resource.Match (.env request.Resource) && s.Action.Match (.crud request.Action)

/-- A user store that returns the same role list for every entity. -/
def constStore (roles : List Role) : UserStore := { GetRoles := fun _ => roles }

/-- A role with the given policies and no other data. -/
def roleOf (policies : List Policy) : Role :=
  { Name := "r", Description := "", Tags := [], Assigments := [], Policies := policies }

/-- A policy with the given statements and no other data. -/
def policyOf (statements : List Statement) : Policy :=
  { Name := "p", Description := "", Statements := statements }

/-- A role source in which the entity `"u"` is allowed `PROD:GET` on the path
`/a:PROD:GET:/b` and no other entity holds a role. -/
def colonPathStore : UserStore where
  GetRoles := fun entity =>
    if entity == "u" then
      [roleOf [policyOf
        [.endpoint (NewEndpointStatement ENV_PROD METHOD_GET "/a:PROD:GET:/b" EFFECT_ALLOW)]]]
    else []

/-! ## The decision engine as it is -/

theorem Allowed_self (s : EndpointStatement) :
    s.Allowed (.endpoint s) =
      if s.Effect.Effect = EFFECT_ALLOW then { Access := true, Reason := MATCH_ALLOW_MATCH }
      else { Access := false, Reason := MATCH_DENY_MATCH } := by
  simp [EndpointStatement.Allowed, EnvEndpointResource.Match, CRUDAction.Match,
    AllowDenyEffect.Match, NewEffect]

theorem scanStatements_eq (l : List Statement) (allowed : Bool) :
    scanStatements l allowed =
      if l.any Statement.stops then none
      else some (allowed || l.any Statement.isEndpoint) := by
  induction l generalizing allowed with
  | nil => simp [scanStatements]
  | cons st rest ih =>
    cases st with
    | endpoint s =>
      by_cases h : s.Effect.Effect = EFFECT_ALLOW
      · simp [scanStatements, Allowed_self, h, ih, Statement.stops, Statement.isEndpoint]
      · have hd : (MATCH_DENY_MATCH == MATCH_DENY_MATCH) = true := by decide
        simp [scanStatements, Allowed_self, h, Statement.stops, hd]
    | mock m => simp [scanStatements, ih, Statement.stops, Statement.isEndpoint]

theorem scanPolicies_eq (l : List Policy) (allowed : Bool) :
    scanPolicies l allowed =
      if l.any (fun p => p.Statements.any Statement.stops) then none
      else some (allowed || l.any (fun p => p.Statements.any Statement.isEndpoint)) := by
  induction l generalizing allowed with
  | nil => simp [scanPolicies]
  | cons p rest ih =>
    by_cases h : p.Statements.any Statement.stops = true
    · simp [scanPolicies, scanStatements_eq, h]
    · simp only [Bool.not_eq_true] at h
      simp [scanPolicies, scanStatements_eq, h, ih, Bool.or_assoc]

theorem scanRoles_eq (l : List Role) (allowed : Bool) :
    scanRoles l allowed =
      if l.any (fun r => r.Policies.any (fun p => p.Statements.any Statement.stops)) then none
      else some (allowed ||
        l.any (fun r => r.Policies.any (fun p => p.Statements.any Statement.isEndpoint))) := by
  induction l generalizing allowed with
  | nil => simp [scanRoles]
  | cons r rest ih =>
    by_cases h : r.Policies.any (fun p => p.Statements.any Statement.stops) = true
    · simp [scanRoles, scanPolicies_eq, h]
    · simp only [Bool.not_eq_true] at h
      simp [scanRoles, scanPolicies_eq, h, ih, Bool.or_assoc]

/-- What `IsAuthorized` computes: the entity's roles hold at least one
`EndpointStatement`, and every `EndpointStatement` they hold has effect
`EFFECT_ALLOW`.  The requested statement does not take part. -/
theorem IsAuthorized_eq (e : EndpointAuthorizationProvider) (entity : EntityId)
    (request : Statement) :
    e.IsAuthorized entity request =
      (!(e.UserStore.GetRoles entity).any
          (fun r => r.Policies.any (fun p => p.Statements.any Statement.stops)) &&
        (e.UserStore.GetRoles entity).any
          (fun r => r.Policies.any (fun p => p.Statements.any Statement.isEndpoint))) := by
  unfold EndpointAuthorizationProvider.IsAuthorized
  simp only [scanRoles_eq]
  split <;> rename_i h
  · split at h
    · rename_i h'; simp [h']
    · simp at h
  · split at h
    · simp at h
    · rename_i h'
      simp only [Bool.not_eq_true] at h'
      simp only [Option.some.injEq] at h
      simp [h', ← h]


/-! ## Claims about the decision engine -/

/-- C1 (the code at a failing input): `MockUserStore` gives `"entity1"` the
single statement `PROD:GET:/example` ALLOW READ.  For the request
`DEV:GET:/other`, no statement of the entity's roles matches the request's
resource and action, so the claimed equivalence requires `false`; the code
returns `true`. -/
theorem IsAuthorized_true_without_matching_statement :
    (NewEndpointAuthorizationProvider MockUserStore).IsAuthorized "entity1"
        (.endpoint (NewEndpointStatement ENV_DEV METHOD_GET "/other" EFFECT_ALLOW)) = true ∧
      ∀ role ∈ MockUserStore.GetRoles "entity1", ∀ policy ∈ role.Policies,
        ∀ st ∈ policy.Statements, ∀ s, st = .endpoint s →
          matchesRequest s (NewEndpointStatement ENV_DEV METHOD_GET "/other" EFFECT_ALLOW)
            = false := by
  refine ⟨by decide, ?_⟩
  intro role hrole policy hpolicy st hst s hs
  simp only [MockUserStore, beq_self_eq_true, if_true, List.mem_singleton] at hrole
  subst hrole
  simp only [List.mem_singleton] at hpolicy
  subst hpolicy
  simp only [List.mem_singleton] at hst
  subst hst
  cases hs
  decide

/-- C2 (the code at the claim's own witness): with `MockUserStore`,
`IsAuthorized("entity1", NewEndpointStatement(ENV_PROD, METHOD_POST, "/example",
EFFECT_ALLOW))` is `true`, although the only statement held by `"entity1"`,
`PROD:GET:/example` READ, does not match the request `PROD:POST:/example`
CREATE. -/
theorem IsAuthorized_mock_entity1_post_example :
    (NewEndpointAuthorizationProvider MockUserStore).IsAuthorized "entity1"
        (.endpoint (NewEndpointStatement ENV_PROD METHOD_POST "/example" EFFECT_ALLOW)) = true ∧
      matchesRequest (NewEndpointStatement ENV_PROD METHOD_GET ENDPOINT_EXAMPLE EFFECT_ALLOW)
        (NewEndpointStatement ENV_PROD METHOD_POST "/example" EFFECT_ALLOW) = false := by
  decide

/-- C3: deny overrides allow, in any order.  When a policy of one of the entity's
roles holds an ALLOW statement and a DENY statement that both match the
resource and action of the request, `IsAuthorized` returns `false`, and it
still returns `false` when the statements of that policy are rearranged by any
permutation. -/
theorem deny_overrides_allow_in_any_order (store : UserStore) (entity : EntityId)
    (request : EndpointStatement) (rs1 rs2 : List Role) (role : Role)
    (ps1 ps2 : List Policy) (policy : Policy) (a d : EndpointStatement)
    (stmts : List Statement)
    (hroles : store.GetRoles entity = rs1 ++ role :: rs2)
    (hpolicies : role.Policies = ps1 ++ policy :: ps2)
    (_ha : Statement.endpoint a ∈ policy.Statements)
    (hd : Statement.endpoint d ∈ policy.Statements)
    (_hamatch : matchesRequest a request = true)
    (_haeffect : a.Effect = NewEffect EFFECT_ALLOW)
    (_hdmatch : matchesRequest d request = true)
    (hdeffect : d.Effect = NewEffect EFFECT_DENY)
    (hperm : stmts.Perm policy.Statements) :
    (NewEndpointAuthorizationProvider store).IsAuthorized entity (.endpoint request) = false ∧
      ∀ store' : UserStore,
        store'.GetRoles entity =
            rs1 ++ { role with
              Policies := ps1 ++ { policy with Statements := stmts } :: ps2 } :: rs2 →
          (NewEndpointAuthorizationProvider store').IsAuthorized entity (.endpoint request)
            = false := by
  have hstop : (Statement.endpoint d).stops = true := by
    simp only [Statement.stops, hdeffect, NewEffect]
    decide
  constructor
  · rw [IsAuthorized_eq]
    have : (store.GetRoles entity).any
        (fun r => r.Policies.any (fun p => p.Statements.any Statement.stops)) = true := by
      rw [hroles, List.any_eq_true]
      refine ⟨role, by simp, ?_⟩
      rw [hpolicies, List.any_eq_true]
      refine ⟨policy, by simp, ?_⟩
      rw [List.any_eq_true]
      exact ⟨_, hd, hstop⟩
    simp [NewEndpointAuthorizationProvider, this]
  · intro store' hstore'
    rw [IsAuthorized_eq]
    have : (store'.GetRoles entity).any
        (fun r => r.Policies.any (fun p => p.Statements.any Statement.stops)) = true := by
      rw [hstore', List.any_eq_true]
      refine ⟨_, List.mem_append_right _ (List.mem_cons_self _ _), ?_⟩
      rw [List.any_eq_true]
      refine ⟨_, List.mem_append_right _ (List.mem_cons_self _ _), ?_⟩
      rw [List.any_eq_true]
      exact ⟨_, hperm.mem_iff.mpr hd, hstop⟩
    simp [NewEndpointAuthorizationProvider, this]

/-- Witness of C3: a policy `[ALLOW, DENY]` on `PROD:GET:/example`, requested as
such, and the same policy rearranged as `[DENY, ALLOW]`. -/
theorem deny_overrides_allow_in_any_order_witness :
    (NewEndpointAuthorizationProvider (constStore [roleOf [policyOf
        [.endpoint (NewEndpointStatement ENV_PROD METHOD_GET "/example" EFFECT_ALLOW),
         .endpoint (NewEndpointStatement ENV_PROD METHOD_GET "/example" EFFECT_DENY)]]])).IsAuthorized
        "entity1" (.endpoint (NewEndpointStatement ENV_PROD METHOD_GET "/example" EFFECT_ALLOW))
        = false ∧
      (NewEndpointAuthorizationProvider (constStore [roleOf [policyOf
        [.endpoint (NewEndpointStatement ENV_PROD METHOD_GET "/example" EFFECT_DENY),
         .endpoint (NewEndpointStatement ENV_PROD METHOD_GET "/example" EFFECT_ALLOW)]]])).IsAuthorized
        "entity1" (.endpoint (NewEndpointStatement ENV_PROD METHOD_GET "/example" EFFECT_ALLOW))
        = false := by
  have h := deny_overrides_allow_in_any_order
    (constStore [roleOf [policyOf
        [.endpoint (NewEndpointStatement ENV_PROD METHOD_GET "/example" EFFECT_ALLOW),
         .endpoint (NewEndpointStatement ENV_PROD METHOD_GET "/example" EFFECT_DENY)]]])
    "entity1" (NewEndpointStatement ENV_PROD METHOD_GET "/example" EFFECT_ALLOW)
    [] [] (roleOf [policyOf
        [.endpoint (NewEndpointStatement ENV_PROD METHOD_GET "/example" EFFECT_ALLOW),
         .endpoint (NewEndpointStatement ENV_PROD METHOD_GET "/example" EFFECT_DENY)]])
    [] [] (policyOf
        [.endpoint (NewEndpointStatement ENV_PROD METHOD_GET "/example" EFFECT_ALLOW),
         .endpoint (NewEndpointStatement ENV_PROD METHOD_GET "/example" EFFECT_DENY)])
    (NewEndpointStatement ENV_PROD METHOD_GET "/example" EFFECT_ALLOW)
    (NewEndpointStatement ENV_PROD METHOD_GET "/example" EFFECT_DENY)
    [.endpoint (NewEndpointStatement ENV_PROD METHOD_GET "/example" EFFECT_DENY),
     .endpoint (NewEndpointStatement ENV_PROD METHOD_GET "/example" EFFECT_ALLOW)]
    rfl rfl (by decide) (by decide) (by decide) rfl (by decide) rfl
    (List.Perm.swap _ _ [])
  exact ⟨h.1, h.2 _ rfl⟩

/-- C4: default deny.  When the role source returns an empty role list for the
entity, `IsAuthorized` returns `false` for every statement (the function is
total, so it returns). -/
theorem IsAuthorized_false_of_no_roles (store : UserStore) (entity : EntityId)
    (statement : Statement) (hroles : store.GetRoles entity = []) :
    (NewEndpointAuthorizationProvider store).IsAuthorized entity statement = false := by
  simp [EndpointAuthorizationProvider.IsAuthorized, NewEndpointAuthorizationProvider, hroles,
    scanRoles]

/-- Witness of C4: `MockUserStore` assigns no role to `"entity2"`. -/
theorem IsAuthorized_false_of_no_roles_witness :
    MockUserStore.GetRoles "entity2" = [] ∧
      (NewEndpointAuthorizationProvider MockUserStore).IsAuthorized "entity2"
        (.endpoint (NewEndpointStatement ENV_PROD METHOD_GET ENDPOINT_EXAMPLE EFFECT_ALLOW))
        = false :=
  ⟨by decide, IsAuthorized_false_of_no_roles MockUserStore "entity2" _ (by decide)⟩

/-- C5 (the code at a failing input): the request `PROD:GET:/example` is allowed
by a policy holding `PROD:GET:/example` ALLOW; adding to that policy the
statement `PROD:POST:/other` DENY, which matches neither the resource nor the
action of the request, turns the decision into `false`. -/
theorem nonmatching_deny_changes_decision :
    matchesRequest (NewEndpointStatement ENV_PROD METHOD_POST "/other" EFFECT_DENY)
        (NewEndpointStatement ENV_PROD METHOD_GET "/example" EFFECT_ALLOW) = false ∧
      (NewEndpointAuthorizationProvider (constStore [roleOf [policyOf
        [.endpoint (NewEndpointStatement ENV_PROD METHOD_GET "/example" EFFECT_ALLOW)]]])).IsAuthorized
        "entity1" (.endpoint (NewEndpointStatement ENV_PROD METHOD_GET "/example" EFFECT_ALLOW))
        = true ∧
      (NewEndpointAuthorizationProvider (constStore [roleOf [policyOf
        [.endpoint (NewEndpointStatement ENV_PROD METHOD_GET "/example" EFFECT_ALLOW),
         .endpoint (NewEndpointStatement ENV_PROD METHOD_POST "/other" EFFECT_DENY)]]])).IsAuthorized
        "entity1" (.endpoint (NewEndpointStatement ENV_PROD METHOD_GET "/example" EFFECT_ALLOW))
        = false := by
  decide

/-- C6 (the code at a failing input): for the policy statement
`s = PROD:GET:/example` DENY and the request `r = PROD:GET:/example` ALLOW,
which match, `s.Allowed(r)` is `{Access: true, Reason: ALLOW_MATCH}`; with the
effects exchanged it is `{Access: false, Reason: DENY_MATCH}`.  The effect that
decides is the one carried by the argument. -/
theorem Allowed_decided_by_argument_effect :
    (NewEndpointStatement ENV_PROD METHOD_GET "/example" EFFECT_DENY).Allowed
        (.endpoint (NewEndpointStatement ENV_PROD METHOD_GET "/example" EFFECT_ALLOW))
        = { Access := true, Reason := MATCH_ALLOW_MATCH } ∧
      (NewEndpointStatement ENV_PROD METHOD_GET "/example" EFFECT_ALLOW).Allowed
        (.endpoint (NewEndpointStatement ENV_PROD METHOD_GET "/example" EFFECT_DENY))
        = { Access := false, Reason := MATCH_DENY_MATCH } := by
  decide

/-- C7: each `Match` is true exactly when the argument has the receiver's
concrete type and equal fields; an `EnvEndpointResource` and a
`MethodEndpointResource` never match, in either direction; and `Match`, called
through the interfaces, is reflexive and symmetric. -/
theorem Match_iff_same_shape_and_fields :
    (∀ (m : MethodEndpointResource) (y : Resource),
        m.Match y = true ↔ ∃ r, y = .method r ∧ r.Method = m.Method ∧ r.Path = m.Path) ∧
      (∀ (e : EnvEndpointResource) (y : Resource),
        e.Match y = true ↔ ∃ r, y = .env r ∧ r.Env = e.Env ∧ r.Resource = e.Resource) ∧
      (∀ (a : AllowDenyEffect) (y : Effect),
        a.Match y = true ↔ ∃ b, y = .allowDeny b ∧ b.Effect = a.Effect) ∧
      (∀ (c : CRUDAction) (y : Action),
        c.Match y = true ↔ ∃ b, y = .crud b ∧ b.Action = c.Action) ∧
      (∀ (m : MethodEndpointResource) (e : EnvEndpointResource),
        m.Match (.env e) = false ∧ e.Match (.method m) = false) ∧
      (∀ x : Resource, x.Match x = true) ∧
      (∀ x y : Resource, x.Match y = y.Match x) ∧
      (∀ x : Effect, x.Match x = true) ∧
      (∀ x y : Effect, x.Match y = y.Match x) ∧
      (∀ x : Action, x.Match x = true) ∧
      (∀ x y : Action, x.Match y = y.Match x) := by
  refine ⟨?_, ?_, ?_, ?_, ?_, ?_, ?_, ?_, ?_, ?_, ?_⟩
  · intro m y
    cases y with
    | method r =>
      simp only [MethodEndpointResource.Match, Bool.and_eq_true, beq_iff_eq, Resource.method.injEq]
      constructor
      · rintro ⟨h1, h2⟩; exact ⟨r, rfl, h1.symm, h2.symm⟩
      · rintro ⟨r', rfl, h1, h2⟩; exact ⟨h1.symm, h2.symm⟩
    | env e => simp [MethodEndpointResource.Match]
  · intro e y
    cases y with
    | method r => simp [EnvEndpointResource.Match]
    | env r =>
      simp only [EnvEndpointResource.Match, Bool.and_eq_true, beq_iff_eq, Resource.env.injEq]
      constructor
      · rintro ⟨h1, h2⟩; exact ⟨r, rfl, h1.symm, h2.symm⟩
      · rintro ⟨r', rfl, h1, h2⟩; exact ⟨h1.symm, h2.symm⟩
  · intro a y
    cases y with
    | allowDeny b =>
      simp only [AllowDenyEffect.Match, beq_iff_eq, Effect.allowDeny.injEq]
      constructor
      · intro h; exact ⟨b, rfl, h.symm⟩
      · rintro ⟨b', rfl, h⟩; exact h.symm
  · intro c y
    cases y with
    | crud b =>
      simp only [CRUDAction.Match, beq_iff_eq, Action.crud.injEq]
      constructor
      · intro h; exact ⟨b, rfl, h.symm⟩
      · rintro ⟨b', rfl, h⟩; exact h.symm
  · intro m e
    exact ⟨rfl, rfl⟩
  · intro x
    cases x <;> simp [Resource.Match, MethodEndpointResource.Match, EnvEndpointResource.Match]
  · intro x y
    cases x <;> cases y <;>
      simp only [Resource.Match, MethodEndpointResource.Match, EnvEndpointResource.Match]
    · rw [Bool.eq_iff_iff]; simp only [Bool.and_eq_true, beq_iff_eq]
      constructor <;> rintro ⟨h1, h2⟩ <;> exact ⟨h1.symm, h2.symm⟩
    · rw [Bool.eq_iff_iff]; simp only [Bool.and_eq_true, beq_iff_eq]
      constructor <;> rintro ⟨h1, h2⟩ <;> exact ⟨h1.symm, h2.symm⟩
  · intro x
    cases x; simp [Effect.Match, AllowDenyEffect.Match]
  · intro x y
    cases x; cases y
    simp only [Effect.Match, AllowDenyEffect.Match]
    rw [Bool.eq_iff_iff]; simp only [beq_iff_eq]
    exact ⟨Eq.symm, Eq.symm⟩
  · intro x
    cases x; simp [Action.Match, CRUDAction.Match]
  · intro x y
    cases x; cases y
    simp only [Action.Match, CRUDAction.Match]
    rw [Bool.eq_iff_iff]; simp only [beq_iff_eq]
    exact ⟨Eq.symm, Eq.symm⟩

/-! ## Lemmas on the index and on `Get` / `Put` -/

section CacheLemmas

variable {K V : Type} [DecidableEq K]

theorem mapGet_cons (k key : K) (e : Element K V) (rest : List (K × Element K V)) :
    mapGet ((k, e) :: rest) key = if k = key then some e else mapGet rest key := rfl

theorem mapDelete_cons (k key : K) (e : Element K V) (rest : List (K × Element K V)) :
    mapDelete ((k, e) :: rest) key =
      if k = key then mapDelete rest key else (k, e) :: mapDelete rest key := by
  by_cases h : k = key <;> simp [mapDelete, List.filter_cons, h]

theorem mapGet_mapDelete_self (m : List (K × Element K V)) (key : K) :
    mapGet (mapDelete m key) key = none := by
  induction m with
  | nil => rfl
  | cons kv rest ih =>
    obtain ⟨k, e⟩ := kv
    rw [mapDelete_cons]
    by_cases h : k = key
    · rw [if_pos h]; exact ih
    · rw [if_neg h, mapGet_cons, if_neg h]; exact ih

theorem mapGet_mapDelete_ne (m : List (K × Element K V)) {key k : K} (h : k ≠ key) :
    mapGet (mapDelete m key) k = mapGet m k := by
  induction m with
  | nil => rfl
  | cons kv rest ih =>
    obtain ⟨k', e⟩ := kv
    rw [mapDelete_cons, mapGet_cons]
    by_cases h' : k' = key
    · have hk : k' ≠ k := fun hk => h (hk ▸ h')
      rw [if_pos h', if_neg hk]; exact ih
    · rw [if_neg h', mapGet_cons, ih]

theorem mapGet_mapDelete_some (m : List (K × Element K V)) {key k : K} {e : Element K V}
    (h : mapGet (mapDelete m key) k = some e) : mapGet m k = some e := by
  by_cases hk : k = key
  · subst hk; rw [mapGet_mapDelete_self] at h; cases h
  · rwa [mapGet_mapDelete_ne m hk] at h

theorem mapGet_mapSet_self (m : List (K × Element K V)) (key : K) (e : Element K V) :
    mapGet (mapSet m key e) key = some e := by
  simp [mapSet, mapGet_cons]

theorem mapGet_mapSet_ne (m : List (K × Element K V)) {key k : K} (e : Element K V)
    (h : k ≠ key) : mapGet (mapSet m key e) k = mapGet m k := by
  have h' : key ≠ k := fun hk => h hk.symm
  rw [mapSet, mapGet_cons, if_neg h', mapGet_mapDelete_ne m h]

/-- Unfolding: `Get` on an indexed entry that is expired. -/
theorem Get_of_expired (c : LRUCache K V) (key : K) (now : Int) {e : Element K V}
    (he : mapGet c.items key = some e) (hexp : c.expired e.Value now) :
    c.Get key now =
      ({ c with list := listRemove c.list e, items := mapDelete c.items key }, none) := by
  unfold LRUCache.Get
  rw [he]
  exact if_pos hexp

/-- Unfolding: `Get` on an indexed entry that is not expired. -/
theorem Get_of_fresh (c : LRUCache K V) (key : K) (now : Int) {e : Element K V}
    (he : mapGet c.items key = some e) (hfresh : ¬ c.expired e.Value now) :
    c.Get key now = ({ c with list := listMoveToFront c.list e }, some e.Value.value) := by
  unfold LRUCache.Get
  rw [he]
  exact if_neg hfresh

/-- Unfolding: `Get` on a key that is not indexed. -/
theorem Get_of_absent (c : LRUCache K V) (key : K) (now : Int)
    (he : mapGet c.items key = none) : c.Get key now = (c, none) := by
  unfold LRUCache.Get
  rw [he]

/-- Unfolding: `Put` on a key that is not indexed. -/
theorem Put_of_absent (c : LRUCache K V) (key : K) (value : V) (now : Int)
    (h : mapGet c.items key = none) :
    c.Put key value now =
      { c.evictStep with
        list := { addr := c.evictStep.nextAddr,
                  Value := { key := key, value := value, timestamp := now } } :: c.evictStep.list
        items := mapSet c.evictStep.items key
          { addr := c.evictStep.nextAddr,
            Value := { key := key, value := value, timestamp := now } }
        nextAddr := c.evictStep.nextAddr + 1 } := by
  unfold LRUCache.Put
  rw [h]
  rfl

theorem evictStep_ttl (c : LRUCache K V) : c.evictStep.ttl = c.ttl := by
  unfold LRUCache.evictStep
  split
  · split <;> rfl
  · rfl

theorem evictStep_nextAddr (c : LRUCache K V) : c.evictStep.nextAddr = c.nextAddr := by
  unfold LRUCache.evictStep
  split
  · split <;> rfl
  · rfl

theorem evictStep_items_sub (c : LRUCache K V) {k : K} {e : Element K V}
    (h : mapGet c.evictStep.items k = some e) : mapGet c.items k = some e := by
  unfold LRUCache.evictStep at h
  split at h
  · split at h
    · exact mapGet_mapDelete_some _ h
    · exact h
  · exact h

theorem Get_ttl (c : LRUCache K V) (key : K) (now : Int) : (c.Get key now).1.ttl = c.ttl := by
  cases he : mapGet c.items key with
  | none => rw [Get_of_absent c key now he]
  | some e =>
    by_cases hexp : c.expired e.Value now
    · rw [Get_of_expired c key now he hexp]
    · rw [Get_of_fresh c key now he hexp]

/-- Index: `Get` adds nothing to the index. -/
theorem Get_items_sub (c : LRUCache K V) (key : K) (now : Int) {k : K} {e : Element K V}
    (h : mapGet (c.Get key now).1.items k = some e) : mapGet c.items k = some e := by
  cases he : mapGet c.items key with
  | none => rwa [Get_of_absent c key now he] at h
  | some e' =>
    by_cases hexp : c.expired e'.Value now
    · rw [Get_of_expired c key now he hexp] at h
      exact mapGet_mapDelete_some _ h
    · rwa [Get_of_fresh c key now he hexp] at h

/-- After a `Get` that reports not found, the key is not in the index. -/
theorem Get_none_absent (c : LRUCache K V) (key : K) (now : Int)
    (h : (c.Get key now).2 = none) : mapGet (c.Get key now).1.items key = none := by
  cases he : mapGet c.items key with
  | none => rwa [Get_of_absent c key now he]
  | some e' =>
    by_cases hexp : c.expired e'.Value now
    · rw [Get_of_expired c key now he hexp]
      exact mapGet_mapDelete_self _ _
    · rw [Get_of_fresh c key now he hexp] at h
      cases h

/-- A `Get` that finds a value: the key is indexed, the entry is not expired, its
value is returned and the index is left as it was. -/
theorem Get_some (c : LRUCache K V) (key : K) (now : Int) {v : V}
    (h : (c.Get key now).2 = some v) :
    ∃ e, mapGet c.items key = some e ∧ e.Value.value = v ∧ ¬ c.expired e.Value now ∧
      (c.Get key now).1.items = c.items := by
  cases he : mapGet c.items key with
  | none => rw [Get_of_absent c key now he] at h; cases h
  | some e' =>
    by_cases hexp : c.expired e'.Value now
    · rw [Get_of_expired c key now he hexp] at h; cases h
    · rw [Get_of_fresh c key now he hexp] at h ⊢
      exact ⟨e', rfl, by simpa using h, hexp, rfl⟩

theorem Put_absent_ttl (c : LRUCache K V) (key : K) (value : V) (now : Int)
    (h : mapGet c.items key = none) : (c.Put key value now).ttl = c.ttl := by
  rw [Put_of_absent c key value now h]
  exact evictStep_ttl c

/-- Index: `Put` of a key that is not indexed stores the new entry under the key. -/
theorem Put_absent_self (c : LRUCache K V) (key : K) (value : V) (now : Int)
    (h : mapGet c.items key = none) :
    mapGet (c.Put key value now).items key =
      some { addr := c.nextAddr, Value := { key := key, value := value, timestamp := now } } := by
  rw [Put_of_absent c key value now h]
  dsimp only
  rw [mapGet_mapSet_self, evictStep_nextAddr]

/-- Index: `Put` of a key that is not indexed adds only that key to the index. -/
theorem Put_absent_other (c : LRUCache K V) (key : K) (value : V) (now : Int)
    (h : mapGet c.items key = none) {k : K} {e : Element K V} (hk : k ≠ key)
    (hget : mapGet (c.Put key value now).items k = some e) : mapGet c.items k = some e := by
  rw [Put_of_absent c key value now h] at hget
  dsimp only at hget
  rw [mapGet_mapSet_ne _ _ hk] at hget
  exact evictStep_items_sub c hget

end CacheLemmas

/-! ## Consistency of the index with the recency list is kept by every operation -/

theorem mem_listRemove {K V : Type} {l : List (Element K V)} {e x : Element K V} :
    x ∈ listRemove l e ↔ x ∈ l ∧ x.addr ≠ e.addr := by
  simp [listRemove, List.mem_filter]

theorem addr_inj {K V : Type} {l : List (Element K V)} (h : (l.map (fun e => e.addr)).Nodup)
    {x y : Element K V} (hx : x ∈ l) (hy : y ∈ l) (hxy : x.addr = y.addr) : x = y :=
  List.inj_on_of_nodup_map h hx hy hxy

theorem key_inj {K V : Type} {l : List (Element K V)} (h : (l.map (fun e => e.Value.key)).Nodup)
    {x y : Element K V} (hx : x ∈ l) (hy : y ∈ l) (hxy : x.Value.key = y.Value.key) : x = y :=
  List.inj_on_of_nodup_map h hx hy hxy

theorem write_addr {K V : Type} (x : Element K V) (addr : Nat) (value : V) (timestamp : Int) :
    (x.write addr value timestamp).addr = x.addr := by
  unfold Element.write; split <;> rfl

theorem write_key {K V : Type} (x : Element K V) (addr : Nat) (value : V) (timestamp : Int) :
    (x.write addr value timestamp).Value.key = x.Value.key := by
  unfold Element.write; split <;> rfl

/-- In a list with distinct addresses, `MoveToFront` of an element of the list
puts it in front of the others, which keep their order. -/
theorem listMoveToFront_of_mem {K V : Type} {l : List (Element K V)}
    (hnd : (l.map (fun e => e.addr)).Nodup) {e : Element K V} (he : e ∈ l) :
    listMoveToFront l e = e :: listRemove l e := by
  unfold listMoveToFront
  cases hfind : l.find? (fun x => decide (x.addr = e.addr)) with
  | none =>
    have := List.find?_eq_none.mp hfind e he
    simp at this
  | some x =>
    have hx : x ∈ l := List.mem_of_find?_eq_some hfind
    have hxa : x.addr = e.addr := by simpa using List.find?_some hfind
    rw [addr_inj hnd hx he hxa]

section Consistency

variable {K V : Type} [DecidableEq K]

theorem mapGet_mem {m : List (K × Element K V)} {k : K} {e : Element K V}
    (h : mapGet m k = some e) : (k, e) ∈ m := by
  induction m with
  | nil => cases h
  | cons kv rest ih =>
    obtain ⟨k', e'⟩ := kv
    rw [mapGet_cons] at h
    by_cases hk : k' = k
    · rw [if_pos hk] at h
      cases h
      subst hk
      exact List.mem_cons_self _ _
    · rw [if_neg hk] at h
      exact List.mem_cons_of_mem _ (ih h)

theorem mapGet_map_snd (m : List (K × Element K V)) (w : Element K V → Element K V) (k : K) :
    mapGet (m.map (fun kv => (kv.1, w kv.2))) k = (mapGet m k).map w := by
  induction m with
  | nil => rfl
  | cons kv rest ih =>
    obtain ⟨k', e'⟩ := kv
    rw [List.map_cons, mapGet_cons, mapGet_cons]
    by_cases hk : k' = k
    · rw [if_pos hk, if_pos hk]; rfl
    · rw [if_neg hk, if_neg hk]; exact ih

theorem mem_mapDelete {m : List (K × Element K V)} {key : K} {kv : K × Element K V} :
    kv ∈ mapDelete m key ↔ kv ∈ m ∧ kv.1 ≠ key := by
  simp [mapDelete, List.mem_filter]

/-- Unlinking an element of the list and deleting its key from the index. -/
theorem Consistent_remove {c : LRUCache K V} (hc : c.Consistent) {e : Element K V}
    (he : e ∈ c.list) :
    LRUCache.Consistent
      { c with list := listRemove c.list e, items := mapDelete c.items e.Value.key } where
  addr_nodup := List.Nodup.sublist ((List.filter_sublist c.list).map _) hc.addr_nodup
  key_nodup := List.Nodup.sublist ((List.filter_sublist c.list).map _) hc.key_nodup
  index_nodup := List.Nodup.sublist ((List.filter_sublist c.items).map _) hc.index_nodup
  addr_lt := fun x hx => hc.addr_lt x (mem_listRemove.mp hx).1
  index_sound := by
    intro kv hkv
    obtain ⟨hmem, hne⟩ := mem_mapDelete.mp hkv
    obtain ⟨hl, hk⟩ := hc.index_sound kv hmem
    refine ⟨mem_listRemove.mpr ⟨hl, ?_⟩, hk⟩
    intro haddr
    have := addr_inj hc.addr_nodup hl he haddr
    exact hne (by rw [← hk, this])
  index_complete := by
    intro x hx
    obtain ⟨hl, hne⟩ := mem_listRemove.mp hx
    have hkey : x.Value.key ≠ e.Value.key := by
      intro h
      have := key_inj hc.key_nodup hl he h
      exact hne (by rw [this])
    show mapGet (mapDelete c.items e.Value.key) x.Value.key = some x
    rw [mapGet_mapDelete_ne _ hkey]
    exact hc.index_complete x hl

/-- Consistency depends on the recency list only up to its order. -/
theorem Consistent_of_perm {c : LRUCache K V} (hc : c.Consistent) {l : List (Element K V)}
    (hp : l.Perm c.list) : LRUCache.Consistent { c with list := l } where
  addr_nodup := (hp.map _).nodup_iff.mpr hc.addr_nodup
  key_nodup := (hp.map _).nodup_iff.mpr hc.key_nodup
  index_nodup := hc.index_nodup
  addr_lt := fun x hx => hc.addr_lt x (hp.mem_iff.mp hx)
  index_sound := fun kv hkv =>
    ⟨hp.mem_iff.mpr (hc.index_sound kv hkv).1, (hc.index_sound kv hkv).2⟩
  index_complete := fun x hx => hc.index_complete x (hp.mem_iff.mp hx)

theorem listRemove_perm {l : List (Element K V)}
    (hnd : (l.map (fun e => e.addr)).Nodup) {e : Element K V} (he : e ∈ l) :
    (e :: listRemove l e).Perm l := by
  induction l with
  | nil => cases he
  | cons x xs ih =>
    rw [List.map_cons, List.nodup_cons] at hnd
    by_cases hxe : x = e
    · subst hxe
      have hrest : listRemove xs x = xs := by
        unfold listRemove
        apply List.filter_eq_self.mpr
        intro y hy
        have : y.addr ≠ x.addr := fun h => hnd.1 (h ▸ List.mem_map_of_mem _ hy)
        simpa using this
      have : listRemove (x :: xs) x = xs := by
        rw [← hrest]
        simp [listRemove, List.filter_cons]
      rw [this]
    · have hexs : e ∈ xs := by
        rcases List.mem_cons.mp he with h | h
        · exact absurd h.symm hxe
        · exact h
      have hxa : x.addr ≠ e.addr := fun h => hnd.1 (h ▸ List.mem_map_of_mem _ hexs)
      have : listRemove (x :: xs) e = x :: listRemove xs e := by
        simp [listRemove, List.filter_cons, hxa]
      rw [this]
      exact (List.Perm.swap x e _).trans ((ih hnd.2 hexs).cons x)

/-- Rewriting the content of elements, keeping their addresses and keys. -/
theorem Consistent_map {c : LRUCache K V} (hc : c.Consistent)
    (w : Element K V → Element K V) (haddr : ∀ x, (w x).addr = x.addr)
    (hkey : ∀ x, (w x).Value.key = x.Value.key) :
    LRUCache.Consistent
      { c with list := c.list.map w, items := c.items.map (fun kv => (kv.1, w kv.2)) } where
  addr_nodup := by
    have : (c.list.map w).map (fun e => e.addr) = c.list.map (fun e => e.addr) := by
      simp [List.map_map, Function.comp_def, haddr]
    show ((c.list.map w).map (fun e => e.addr)).Nodup
    rw [this]
    exact hc.addr_nodup
  key_nodup := by
    have : (c.list.map w).map (fun e => e.Value.key) = c.list.map (fun e => e.Value.key) := by
      simp [List.map_map, Function.comp_def, hkey]
    show ((c.list.map w).map (fun e => e.Value.key)).Nodup
    rw [this]
    exact hc.key_nodup
  index_nodup := by
    have : (c.items.map (fun kv => (kv.1, w kv.2))).map (fun kv => kv.1) =
        c.items.map (fun kv => kv.1) := by
      simp [List.map_map, Function.comp_def]
    show ((c.items.map (fun kv => (kv.1, w kv.2))).map (fun kv => kv.1)).Nodup
    rw [this]
    exact hc.index_nodup
  addr_lt := by
    intro x hx
    obtain ⟨y, hy, rfl⟩ := List.mem_map.mp hx
    rw [haddr]
    exact hc.addr_lt y hy
  index_sound := by
    intro kv hkv
    obtain ⟨kv0, hkv0, rfl⟩ := List.mem_map.mp hkv
    obtain ⟨hl, hk⟩ := hc.index_sound kv0 hkv0
    exact ⟨List.mem_map_of_mem _ hl, by rw [hkey]; exact hk⟩
  index_complete := by
    intro x hx
    obtain ⟨y, hy, rfl⟩ := List.mem_map.mp hx
    show mapGet (c.items.map (fun kv => (kv.1, w kv.2))) (w y).Value.key = some (w y)
    rw [hkey, mapGet_map_snd, hc.index_complete y hy]
    rfl

/-- Pushing a new element, under a key that is not indexed, to the front. -/
theorem Consistent_push {c : LRUCache K V} (hc : c.Consistent) (key : K) (value : V)
    (now : Int) (habs : mapGet c.items key = none) :
    LRUCache.Consistent
      { c with
        list := { addr := c.nextAddr,
                  Value := { key := key, value := value, timestamp := now } } :: c.list
        items := mapSet c.items key
          { addr := c.nextAddr, Value := { key := key, value := value, timestamp := now } }
        nextAddr := c.nextAddr + 1 } := by
  have hkey_new : ∀ x ∈ c.list, x.Value.key ≠ key := by
    intro x hx h
    have := hc.index_complete x hx
    rw [h, habs] at this
    cases this
  refine ⟨?_, ?_, ?_, ?_, ?_, ?_⟩
  · show ((_ :: c.list).map (fun e => e.addr)).Nodup
    rw [List.map_cons, List.nodup_cons]
    refine ⟨?_, hc.addr_nodup⟩
    intro hmem
    obtain ⟨x, hx, hxa⟩ := List.mem_map.mp hmem
    have := hc.addr_lt x hx
    dsimp only at hxa
    omega
  · show ((_ :: c.list).map (fun e => e.Value.key)).Nodup
    rw [List.map_cons, List.nodup_cons]
    refine ⟨?_, hc.key_nodup⟩
    intro hmem
    obtain ⟨x, hx, hxk⟩ := List.mem_map.mp hmem
    exact hkey_new x hx hxk
  · show ((mapSet c.items key _).map (fun kv => kv.1)).Nodup
    rw [mapSet, List.map_cons, List.nodup_cons]
    refine ⟨?_, List.Nodup.sublist ((List.filter_sublist c.items).map _) hc.index_nodup⟩
    intro hmem
    obtain ⟨kv, hkv, hk⟩ := List.mem_map.mp hmem
    exact (mem_mapDelete.mp hkv).2 hk
  · intro x hx
    show x.addr < c.nextAddr + 1
    rcases List.mem_cons.mp hx with h | h
    · rw [h]; exact Nat.lt_succ_self _
    · exact Nat.lt_succ_of_lt (hc.addr_lt x h)
  · intro kv hkv
    rcases List.mem_cons.mp hkv with h | h
    · rw [h]; exact ⟨List.mem_cons_self _ _, rfl⟩
    · obtain ⟨hl, hk⟩ := hc.index_sound kv (mem_mapDelete.mp h).1
      exact ⟨List.mem_cons_of_mem _ hl, hk⟩
  · intro x hx
    rcases List.mem_cons.mp hx with h | h
    · rw [h]; exact mapGet_mapSet_self _ _ _
    · show mapGet (mapSet c.items key _) x.Value.key = some x
      rw [mapGet_mapSet_ne _ _ (hkey_new x h)]
      exact hc.index_complete x h

theorem Consistent_indexed {c : LRUCache K V} (hc : c.Consistent) {k : K} {e : Element K V}
    (h : mapGet c.items k = some e) : e ∈ c.list ∧ e.Value.key = k :=
  hc.index_sound (k, e) (mapGet_mem h)

theorem Consistent_New (capacity ttl : Int) :
    (NewLRUCache capacity ttl : LRUCache K V).Consistent where
  addr_nodup := List.nodup_nil
  key_nodup := List.nodup_nil
  index_nodup := List.nodup_nil
  addr_lt := fun _ h => by cases h
  index_sound := fun _ h => by cases h
  index_complete := fun _ h => by cases h

theorem Consistent_Get {c : LRUCache K V} (hc : c.Consistent) (key : K) (now : Int) :
    (c.Get key now).1.Consistent := by
  cases he : mapGet c.items key with
  | none => rw [Get_of_absent c key now he]; exact hc
  | some e =>
    obtain ⟨hmem, hk⟩ := Consistent_indexed hc he
    by_cases hexp : c.expired e.Value now
    · rw [Get_of_expired c key now he hexp]
      have := Consistent_remove hc hmem
      rw [hk] at this
      exact this
    · rw [Get_of_fresh c key now he hexp, listMoveToFront_of_mem hc.addr_nodup hmem]
      exact Consistent_of_perm hc (listRemove_perm hc.addr_nodup hmem)

theorem Consistent_evictStep {c : LRUCache K V} (hc : c.Consistent) :
    c.evictStep.Consistent := by
  unfold LRUCache.evictStep
  split
  · split
    · rename_i oldest hlast
      exact Consistent_remove hc (List.mem_of_getLast?_eq_some hlast)
    · exact hc
  · exact hc

theorem Consistent_Put {c : LRUCache K V} (hc : c.Consistent) (key : K) (value : V)
    (now : Int) : (c.Put key value now).Consistent := by
  cases he : mapGet c.items key with
  | none =>
    rw [Put_of_absent c key value now he]
    have habs : mapGet c.evictStep.items key = none := by
      cases h : mapGet c.evictStep.items key with
      | none => rfl
      | some x => rw [evictStep_items_sub c h] at he; cases he
    exact Consistent_push (Consistent_evictStep hc) key value now habs
  | some e =>
    obtain ⟨hmem, _⟩ := Consistent_indexed hc he
    have hput : c.Put key value now =
        { c with
          list := (listMoveToFront c.list e).map (fun x => x.write e.addr value now)
          items := c.items.map (fun kv => (kv.1, kv.2.write e.addr value now)) } := by
      unfold LRUCache.Put
      rw [he]
    rw [hput, listMoveToFront_of_mem hc.addr_nodup hmem]
    refine Consistent_map (Consistent_of_perm hc (listRemove_perm hc.addr_nodup hmem))
      (fun x => x.write e.addr value now) (fun x => write_addr x _ _ _)
      (fun x => write_key x _ _ _)

theorem Consistent_expireLoop (now : Int) (prevs : List (Element K V)) :
    ∀ c : LRUCache K V, c.Consistent → (∀ x ∈ prevs, x ∈ c.list) →
      (prevs.map (fun e => e.addr)).Nodup → (expireLoop now prevs c).Consistent := by
  induction prevs with
  | nil => intro c hc _ _; exact hc
  | cons e rest ih =>
    intro c hc hmem hnd
    rw [List.map_cons, List.nodup_cons] at hnd
    unfold expireLoop
    dsimp only
    split
    · apply ih _ (Consistent_remove hc (hmem e (List.mem_cons_self _ _))) _ hnd.2
      intro x hx
      refine mem_listRemove.mpr ⟨hmem x (List.mem_cons_of_mem _ hx), ?_⟩
      intro h
      exact hnd.1 (h ▸ List.mem_map_of_mem _ hx)
    · exact hc

theorem Consistent_ExpireItems {c : LRUCache K V} (hc : c.Consistent) (now : Int) :
    (c.ExpireItems now).Consistent := by
  unfold LRUCache.ExpireItems
  apply Consistent_expireLoop now _ c hc
  · intro x hx; exact List.mem_reverse.mp hx
  · rw [List.map_reverse]
    exact List.nodup_reverse.mpr hc.addr_nodup

/-- Every cache built from `NewLRUCache` by `Get`, `Put` and `ExpireItems` is
consistent. -/
theorem Reachable_Consistent {capacity ttl : Int} {c : LRUCache K V}
    (h : LRUCache.Reachable capacity ttl c) : c.Consistent := by
  induction h with
  | new => exact Consistent_New capacity ttl
  | get c key now _ ih => exact Consistent_Get ih key now
  | put c key value now _ ih => exact Consistent_Put ih key value now
  | expire c now _ ih => exact Consistent_ExpireItems ih now

end Consistency

/-! ## The caching wrapper -/

theorem wrapper_of_hit {σ : Type} (e : EndpointAuthorizationCacheProvider σ)
    (entity : EntityId) (statement : Statement) (tGet tPut : Int) {allowed : Bool}
    (h : (e.cache.Get (cacheKey entity statement) tGet).2 = some allowed) :
    e.IsAuthorized entity statement tGet tPut =
      (allowed, { e with cache := (e.cache.Get (cacheKey entity statement) tGet).1 }) := by
  unfold EndpointAuthorizationCacheProvider.IsAuthorized
  dsimp only
  split
  · rename_i c1 a heq
    rw [heq] at h
    cases h
    rw [heq]
  · rename_i c1 heq
    rw [heq] at h
    cases h

theorem wrapper_of_miss {σ : Type} (e : EndpointAuthorizationCacheProvider σ)
    (entity : EntityId) (statement : Statement) (tGet tPut : Int)
    (h : (e.cache.Get (cacheKey entity statement) tGet).2 = none) :
    e.IsAuthorized entity statement tGet tPut =
      ((e.auth.IsAuthorized e.auth.state entity statement).1,
        { cache := (e.cache.Get (cacheKey entity statement) tGet).1.Put
            (cacheKey entity statement) (e.auth.IsAuthorized e.auth.state entity statement).1 tPut
          auth := { e.auth with
            state := (e.auth.IsAuthorized e.auth.state entity statement).2 } }) := by
  unfold EndpointAuthorizationCacheProvider.IsAuthorized
  dsimp only
  split
  · rename_i c1 a heq
    rw [heq] at h
    cases h
  · rename_i c1 heq
    rw [heq]

/-- After a call of the wrapper, the key of the call is indexed and the entry
holds the boolean that the call returned. -/
theorem wrapper_entry_after {σ : Type} (e : EndpointAuthorizationCacheProvider σ)
    (entity : EntityId) (statement : Statement) (tGet tPut : Int) :
    ∃ el, mapGet (e.IsAuthorized entity statement tGet tPut).2.cache.items
        (cacheKey entity statement) = some el ∧
      el.Value.value = (e.IsAuthorized entity statement tGet tPut).1 := by
  cases hget : (e.cache.Get (cacheKey entity statement) tGet).2 with
  | some allowed =>
    rw [wrapper_of_hit e entity statement tGet tPut hget]
    obtain ⟨el, hel, hval, _, hitems⟩ := Get_some _ _ _ hget
    exact ⟨el, by dsimp only; rw [hitems]; exact hel, hval⟩
  | none =>
    rw [wrapper_of_miss e entity statement tGet tPut hget]
    have habs := Get_none_absent _ _ _ hget
    exact ⟨_, Put_absent_self _ _ _ _ habs, rfl⟩

theorem wrapper_ttl {σ : Type} (e : EndpointAuthorizationCacheProvider σ)
    (entity : EntityId) (statement : Statement) (tGet tPut : Int) :
    (e.IsAuthorized entity statement tGet tPut).2.cache.ttl = e.cache.ttl := by
  cases hget : (e.cache.Get (cacheKey entity statement) tGet).2 with
  | some allowed =>
    rw [wrapper_of_hit e entity statement tGet tPut hget]
    exact Get_ttl _ _ _
  | none =>
    rw [wrapper_of_miss e entity statement tGet tPut hget]
    have habs := Get_none_absent _ _ _ hget
    dsimp only
    rw [Put_absent_ttl _ _ _ _ habs, Get_ttl]

/-- C8: cache idempotence.  After a call of the wrapper for `(entity, statement)`,
a second call with the same arguments, made while the entry stored under the
key is not expired (TTL disabled, or age at most TTL at the time of the second
lookup) and with no cache operation in between, returns the boolean of the
first call and leaves the wrapped engine as it was, whatever engine `auth2` is
installed by then: the engine is not invoked. -/
theorem cache_idempotence {σ : Type} (e : EndpointAuthorizationCacheProvider σ)
    (entity : EntityId) (statement : Statement) (t1 t1' t2 t2' : Int)
    (auth2 : AuthorizationProvider σ)
    (hfresh : ∀ el,
      mapGet (e.IsAuthorized entity statement t1 t1').2.cache.items
          (cacheKey entity statement) = some el →
        ¬ (e.IsAuthorized entity statement t1 t1').2.cache.expired el.Value t2) :
    (((e.IsAuthorized entity statement t1 t1').2.withEngine auth2).IsAuthorized
        entity statement t2 t2').1 = (e.IsAuthorized entity statement t1 t1').1 ∧
      (((e.IsAuthorized entity statement t1 t1').2.withEngine auth2).IsAuthorized
        entity statement t2 t2').2.auth = auth2 := by
  obtain ⟨el, hel, hval⟩ := wrapper_entry_after e entity statement t1 t1'
  have hget := Get_of_fresh _ _ t2 hel (hfresh el hel)
  have hhit : (((e.IsAuthorized entity statement t1 t1').2.withEngine auth2).cache.Get
      (cacheKey entity statement) t2).2 = some el.Value.value := by
    show (((e.IsAuthorized entity statement t1 t1').2).cache.Get
      (cacheKey entity statement) t2).2 = some el.Value.value
    rw [hget]
  rw [wrapper_of_hit _ entity statement t2 t2' hhit]
  exact ⟨hval, rfl⟩

/-- Witness of C8, after the test of the wrapper: the engine answers `true` for
`entity1:action1` at the first call; the second call, 5 time units later with
TTL 300, meets an engine that would answer `false` and whose call counter is
at 7: it still returns `true`, and the counter is still at 7. -/
theorem cache_idempotence_witness :
    ((NewEndpointAuthorizationCacheProvider (NewLRUCache 10 300)
        (countingProvider (fun _ _ => true) 0)).IsAuthorized "entity1"
        (NewMockStatement "action1") 0 0).1 = true ∧
      ((((NewEndpointAuthorizationCacheProvider (NewLRUCache 10 300)
          (countingProvider (fun _ _ => true) 0)).IsAuthorized "entity1"
          (NewMockStatement "action1") 0 0).2.withEngine
            (countingProvider (fun _ _ => false) 7)).IsAuthorized "entity1"
          (NewMockStatement "action1") 5 5).1 = true ∧
      ((((NewEndpointAuthorizationCacheProvider (NewLRUCache 10 300)
          (countingProvider (fun _ _ => true) 0)).IsAuthorized "entity1"
          (NewMockStatement "action1") 0 0).2.withEngine
            (countingProvider (fun _ _ => false) 7)).IsAuthorized "entity1"
          (NewMockStatement "action1") 5 5).2.auth.state = 7 := by
  have h0 : mapGet ((NewEndpointAuthorizationCacheProvider (NewLRUCache 10 300)
      (countingProvider (fun _ _ => true) 0)).IsAuthorized "entity1"
      (NewMockStatement "action1") 0 0).2.cache.items
      (cacheKey "entity1" (NewMockStatement "action1")) =
      some ⟨0, ⟨"entity1:action1", true, 0⟩⟩ := by decide
  have h := cache_idempotence
    (NewEndpointAuthorizationCacheProvider (NewLRUCache 10 300)
      (countingProvider (fun _ _ => true) 0))
    "entity1" (NewMockStatement "action1") 0 0 5 5 (countingProvider (fun _ _ => false) 7)
    (by
      intro el hel
      rw [h0] at hel
      cases hel
      decide)
  refine ⟨by decide, ?_, ?_⟩
  · rw [h.1]; decide
  · rw [h.2]; rfl

/-- C9 (counterexample): two different `(entity, statement)` pairs with the same
cache key.  The engine allows `PROD:GET:/a:PROD:GET:/b` to `"u"` and nothing to
`"u:PROD:GET:/a"`; after the first call has cached `true`, the call for
`("u:PROD:GET:/a", PROD:GET:/b)` returns `true` from the cache, where the engine
answers `false`. -/
theorem cache_key_collision_returns_other_decision :
    cacheKey "u" (.endpoint (NewEndpointStatement ENV_PROD METHOD_GET "/a:PROD:GET:/b"
        EFFECT_ALLOW)) =
      cacheKey "u:PROD:GET:/a" (.endpoint (NewEndpointStatement ENV_PROD METHOD_GET "/b"
        EFFECT_ALLOW)) ∧
    (runCalls (NewEndpointAuthorizationCacheProvider (NewLRUCache 10 300)
        (fixedProvider (NewEndpointAuthorizationProvider colonPathStore).IsAuthorized))
      [{ entity := "u"
         statement := .endpoint (NewEndpointStatement ENV_PROD METHOD_GET "/a:PROD:GET:/b"
           EFFECT_ALLOW)
         tGet := 0, tPut := 0 },
       { entity := "u:PROD:GET:/a"
         statement := .endpoint (NewEndpointStatement ENV_PROD METHOD_GET "/b" EFFECT_ALLOW)
         tGet := 1, tPut := 1 }]).1 = [true, true] ∧
    (NewEndpointAuthorizationProvider colonPathStore).IsAuthorized "u:PROD:GET:/a"
      (.endpoint (NewEndpointStatement ENV_PROD METHOD_GET "/b" EFFECT_ALLOW)) = false := by
  decide

/-- The induction behind C9: a wrapper whose engine is the fixed function `f` and
whose cached values agree with `f` on the calls of `all` keeps that agreement,
and answers every call of `calls ⊆ all` as `f` does. -/
theorem runCalls_fixed_of_agreeing_cache (f : EntityId → Statement → Bool) (all : List Call)
    (hkey : ∀ a ∈ all, ∀ b ∈ all,
      cacheKey a.entity a.statement = cacheKey b.entity b.statement →
        f a.entity a.statement = f b.entity b.statement)
    (calls : List Call) (hsub : ∀ a ∈ calls, a ∈ all)
    (e : EndpointAuthorizationCacheProvider Unit) (hauth : e.auth = fixedProvider f)
    (hinv : ∀ k el, mapGet e.cache.items k = some el → ∀ b ∈ all,
      cacheKey b.entity b.statement = k → el.Value.value = f b.entity b.statement) :
    (runCalls e calls).1 = calls.map (fun c => f c.entity c.statement) := by
  induction calls generalizing e with
  | nil => rfl
  | cons call rest ih =>
    have hcall : call ∈ all := hsub call (List.mem_cons_self _ _)
    have hrest : ∀ a ∈ rest, a ∈ all := fun a ha => hsub a (List.mem_cons_of_mem _ ha)
    simp only [runCalls, List.map_cons]
    cases hget : (e.cache.Get (cacheKey call.entity call.statement) call.tGet).2 with
    | some allowed =>
      obtain ⟨el, hel, hval, _, _⟩ := Get_some _ _ _ hget
      have hv : allowed = f call.entity call.statement := by
        rw [← hval]; exact hinv _ el hel call hcall rfl
      rw [wrapper_of_hit e call.entity call.statement call.tGet call.tPut hget]
      dsimp only
      rw [hv]
      congr 1
      refine ih hrest { cache := _, auth := e.auth } hauth ?_
      intro k el' hel' b hb hk
      exact hinv k el' (Get_items_sub _ _ _ hel') b hb hk
    | none =>
      have habs := Get_none_absent _ _ _ hget
      rw [wrapper_of_miss e call.entity call.statement call.tGet call.tPut hget]
      dsimp only
      have hans : (e.auth.IsAuthorized e.auth.state call.entity call.statement).1 =
          f call.entity call.statement := by rw [hauth]; rfl
      rw [hans]
      congr 1
      refine ih hrest { cache := _, auth := _ } (by rw [hauth]) ?_
      intro k el' hel' b hb hk
      dsimp only at hel'
      by_cases hkk : k = cacheKey call.entity call.statement
      · subst hkk
        rw [Put_absent_self _ _ _ _ habs] at hel'
        cases hel'
        exact hkey call hcall b hb hk.symm
      · exact hinv k el' (Get_items_sub _ _ _ (Put_absent_other _ _ _ _ habs hkk hel')) b hb hk

/-- C9 (amended): starting from an empty cache of any capacity and TTL, with a
wrapped engine that is a fixed function `f` of `(entity, statement)`, and for
every finite sequence of wrapper calls in which any two calls with the same
cache key `entity + ":" + statement.String()` have the same engine answer,
each call returns the value of `f` for its `(entity, statement)`. -/
theorem cache_wrapper_returns_engine_value (f : EntityId → Statement → Bool)
    (capacity ttl : Int) (calls : List Call)
    (hkey : ∀ a ∈ calls, ∀ b ∈ calls,
      cacheKey a.entity a.statement = cacheKey b.entity b.statement →
        f a.entity a.statement = f b.entity b.statement) :
    (runCalls (NewEndpointAuthorizationCacheProvider (NewLRUCache capacity ttl)
        (fixedProvider f)) calls).1 = calls.map (fun c => f c.entity c.statement) := by
  apply runCalls_fixed_of_agreeing_cache f calls hkey calls (fun _ h => h) _ rfl
  intro k el hel
  simp [NewEndpointAuthorizationCacheProvider, NewLRUCache, mapGet] at hel

/-- Witness of C9 (amended): the decision engine over `MockUserStore`, asked for
`PROD:GET:/example` on behalf of `entity1`, `entity2` and `entity1` again. -/
theorem cache_wrapper_returns_engine_value_witness :
    (runCalls (NewEndpointAuthorizationCacheProvider (NewLRUCache 10 300)
        (fixedProvider (NewEndpointAuthorizationProvider MockUserStore).IsAuthorized))
      [{ entity := "entity1"
         statement := .endpoint (NewEndpointStatement ENV_PROD METHOD_GET "/example" EFFECT_ALLOW)
         tGet := 0, tPut := 0 },
       { entity := "entity2"
         statement := .endpoint (NewEndpointStatement ENV_PROD METHOD_GET "/example" EFFECT_ALLOW)
         tGet := 1, tPut := 1 },
       { entity := "entity1"
         statement := .endpoint (NewEndpointStatement ENV_PROD METHOD_GET "/example" EFFECT_ALLOW)
         tGet := 2, tPut := 2 }]).1 = [true, false, true] := by
  rw [cache_wrapper_returns_engine_value
    (NewEndpointAuthorizationProvider MockUserStore).IsAuthorized 10 300 _ (by decide)]
  decide

/-! ## Capacity eviction -/

/-- Removing the back element of a list with distinct addresses leaves the
elements in front of it. -/
theorem listRemove_back {K V : Type} (init : List (Element K V)) (oldest : Element K V)
    (hnodup : ((init ++ [oldest]).map (fun e => e.addr)).Nodup) :
    listRemove (init ++ [oldest]) oldest = init := by
  have hne : ∀ x ∈ init, x.addr ≠ oldest.addr := by
    intro x hx heq
    rw [List.map_append, List.nodup_append] at hnodup
    exact hnodup.2.2 (List.mem_map_of_mem _ hx) (by simp [heq])
  unfold listRemove
  rw [List.filter_append]
  have h1 : init.filter (fun x => decide (x.addr ≠ oldest.addr)) = init :=
    List.filter_eq_self.mpr (fun x hx => by simpa using hne x hx)
  rw [h1]
  simp

section Eviction

variable {K V : Type} [DecidableEq K]

/-- The eviction step on a cache that holds exactly `capacity ≥ 1` entries. -/
theorem evictStep_of_full (c : LRUCache K V) (hcons : c.Consistent) (hcap : 1 ≤ c.capacity)
    (hfull : (c.list.length : Int) = c.capacity) :
    ∃ oldest, c.list.getLast? = some oldest ∧ c.list = c.list.dropLast ++ [oldest] ∧
      c.evictStep =
        { c with list := c.list.dropLast, items := mapDelete c.items oldest.Value.key } := by
  have hne : c.list ≠ [] := by
    intro h
    rw [h] at hfull
    simp at hfull
    omega
  cases hlast : c.list.getLast? with
  | none => exact absurd (List.getLast?_eq_none_iff.mp hlast) hne
  | some oldest =>
    have hsplit : c.list = c.list.dropLast ++ [oldest] :=
      (List.dropLast_append_getLast? oldest (by rw [hlast]; rfl)).symm
    refine ⟨oldest, rfl, hsplit, ?_⟩
    have hrem : listRemove c.list oldest = c.list.dropLast := by
      have h := hcons.addr_nodup
      rw [hsplit] at h
      conv_lhs => rw [hsplit]
      exact listRemove_back _ _ h
    unfold LRUCache.evictStep
    rw [if_pos hfull, hlast]
    dsimp only
    rw [hrem]

/-- The recency order is the order of touches, part 1: a `Get` that finds a
value moves the entry of the key to the front and keeps the order of the
others. -/
theorem Get_moves_to_front (c : LRUCache K V) (hcons : c.Consistent) (key : K) (now : Int)
    {v : V} (h : (c.Get key now).2 = some v) :
    ∃ e, e ∈ c.list ∧ e.Value.key = key ∧ (c.Get key now).1.list = e :: listRemove c.list e := by
  obtain ⟨e, he, _, hfresh, _⟩ := Get_some c key now h
  obtain ⟨hmem, hk⟩ := Consistent_indexed hcons he
  refine ⟨e, hmem, hk, ?_⟩
  rw [Get_of_fresh c key now he hfresh]
  exact listMoveToFront_of_mem hcons.addr_nodup hmem

/-- The recency order is the order of touches, part 2: after `Put(key, value)`
the entry of the key, holding the value and the time of the `Put`, is at the
front. -/
theorem Put_moves_to_front (c : LRUCache K V) (hcons : c.Consistent) (key : K) (value : V)
    (now : Int) :
    ∃ e rest, (c.Put key value now).list = e :: rest ∧ e.Value.key = key ∧
      e.Value.value = value ∧ e.Value.timestamp = now := by
  cases he : mapGet c.items key with
  | none =>
    rw [Put_of_absent c key value now he]
    exact ⟨_, _, rfl, rfl, rfl, rfl⟩
  | some e =>
    obtain ⟨hmem, hk⟩ := Consistent_indexed hcons he
    have hput : (c.Put key value now).list =
        (listMoveToFront c.list e).map (fun x => x.write e.addr value now) := by
      unfold LRUCache.Put
      rw [he]
    rw [hput, listMoveToFront_of_mem hcons.addr_nodup hmem, List.map_cons]
    refine ⟨_, _, rfl, ?_, ?_, ?_⟩
    · rw [write_key]; exact hk
    · simp [Element.write]
    · simp [Element.write]

/-- C10: capacity eviction is least-recently-used.  On a consistent cache of
capacity `n ≥ 1` that holds exactly `n` entries, `Put(k, v)` with a key `k`
that is not in the cache removes the entry `oldest` at the back of the recency
list from the list and from the index, keeps every other entry in place with
its content, and puts the new entry `(k, v, now)` at the front; a following
`Get` on the evicted key reports not found, whenever it is made. -/
theorem Put_evicts_least_recently_used (c : LRUCache K V) (k : K) (v : V) (now : Int)
    (hcons : c.Consistent) (hcap : 1 ≤ c.capacity)
    (hfull : (c.list.length : Int) = c.capacity) (hnew : mapGet c.items k = none) :
    ∃ oldest, c.list.getLast? = some oldest ∧
      (c.Put k v now).list =
        { addr := c.nextAddr, Value := { key := k, value := v, timestamp := now } }
          :: c.list.dropLast ∧
      mapGet (c.Put k v now).items k =
        some { addr := c.nextAddr, Value := { key := k, value := v, timestamp := now } } ∧
      mapGet (c.Put k v now).items oldest.Value.key = none ∧
      (∀ e ∈ c.list.dropLast, mapGet (c.Put k v now).items e.Value.key = some e) ∧
      (∀ k', k' ≠ k → k' ≠ oldest.Value.key →
        mapGet (c.Put k v now).items k' = mapGet c.items k') ∧
      (∀ now', ((c.Put k v now).Get oldest.Value.key now').2 = none) := by
  obtain ⟨oldest, hlast, hsplit, hev⟩ := evictStep_of_full c hcons hcap hfull
  have hold_mem : oldest ∈ c.list := by rw [hsplit]; simp
  have hold_idx : mapGet c.items oldest.Value.key = some oldest :=
    hcons.index_complete oldest hold_mem
  have hold_ne : oldest.Value.key ≠ k := by
    intro h
    rw [h, hnew] at hold_idx
    cases hold_idx
  have hitems : ∀ k', k' ≠ k →
      mapGet (c.Put k v now).items k' = mapGet (mapDelete c.items oldest.Value.key) k' := by
    intro k' hk'
    rw [Put_of_absent c k v now hnew, hev]
    dsimp only
    rw [mapGet_mapSet_ne _ _ hk']
  have hgone : mapGet (c.Put k v now).items oldest.Value.key = none := by
    rw [hitems _ hold_ne, mapGet_mapDelete_self]
  refine ⟨oldest, hlast, ?_, Put_absent_self c k v now hnew, hgone, ?_, ?_, ?_⟩
  · rw [Put_of_absent c k v now hnew, hev]
  · intro e he
    have he_mem : e ∈ c.list := by rw [hsplit]; exact List.mem_append_left _ he
    have he_idx := hcons.index_complete e he_mem
    have he_ne_k : e.Value.key ≠ k := by
      intro h
      rw [h, hnew] at he_idx
      cases he_idx
    have he_ne_old : e.Value.key ≠ oldest.Value.key := by
      intro h
      have hnd := hcons.key_nodup
      rw [hsplit, List.map_append, List.nodup_append] at hnd
      exact hnd.2.2 (List.mem_map_of_mem _ he) (by simp [h])
    rw [hitems _ he_ne_k, mapGet_mapDelete_ne _ he_ne_old, he_idx]
  · intro k' hk hk'
    rw [hitems _ hk, mapGet_mapDelete_ne _ hk']
  · intro now'
    rw [Get_of_absent _ _ _ hgone]

/-- Witness of C10, after `TestLRUCache_Eviction`: capacity 2, `Put` of `key1`,
`key2`, then `key3`: `key1` is evicted (a `Get` on it reports not found) and
the recency list holds `key3`, `key2`. -/
theorem Put_evicts_least_recently_used_witness :
    ((((NewLRUCache 2 600 : LRUCache String String).Put "key1" "value1" 0).Put
        "key2" "value2" 1).Put "key3" "value3" 2).list =
        [⟨2, ⟨"key3", "value3", 2⟩⟩, ⟨1, ⟨"key2", "value2", 1⟩⟩] ∧
      (((((NewLRUCache 2 600 : LRUCache String String).Put "key1" "value1" 0).Put
        "key2" "value2" 1).Put "key3" "value3" 2).Get "key1" 3).2 = none := by
  obtain ⟨oldest, hlast, hlist, _, _, _, _, hget⟩ := Put_evicts_least_recently_used
    (((NewLRUCache 2 600 : LRUCache String String).Put "key1" "value1" 0).Put
      "key2" "value2" 1) "key3" "value3" 2 (by decide) (by decide) (by decide) (by decide)
  have h0 : (((NewLRUCache 2 600 : LRUCache String String).Put "key1" "value1" 0).Put
      "key2" "value2" 1).list.getLast? = some ⟨0, ⟨"key1", "value1", 0⟩⟩ := by decide
  rw [h0] at hlast
  cases hlast
  exact ⟨hlist.trans (by decide), hget 3⟩

end Eviction

/-! ## Sequences of calls: fields, consistency, capacity -/

section Sequences

variable {K V : Type} [DecidableEq K]

/-- Unfolding: `Put` on a key that is indexed. -/
theorem Put_of_present (c : LRUCache K V) (key : K) (value : V) (now : Int)
    {e : Element K V} (he : mapGet c.items key = some e) :
    c.Put key value now =
      { c with
        list := (listMoveToFront c.list e).map (fun x => x.write e.addr value now)
        items := c.items.map (fun kv => (kv.1, kv.2.write e.addr value now)) } := by
  unfold LRUCache.Put
  rw [he]

theorem evictStep_capacity (c : LRUCache K V) : c.evictStep.capacity = c.capacity := by
  unfold LRUCache.evictStep
  split
  · split <;> rfl
  · rfl

theorem Get_capacity (c : LRUCache K V) (key : K) (now : Int) :
    (c.Get key now).1.capacity = c.capacity := by
  cases he : mapGet c.items key with
  | none => rw [Get_of_absent c key now he]
  | some e =>
    by_cases hexp : c.expired e.Value now
    · rw [Get_of_expired c key now he hexp]
    · rw [Get_of_fresh c key now he hexp]

theorem Put_capacity (c : LRUCache K V) (key : K) (value : V) (now : Int) :
    (c.Put key value now).capacity = c.capacity := by
  cases he : mapGet c.items key with
  | none => rw [Put_of_absent c key value now he]; exact evictStep_capacity c
  | some e => rw [Put_of_present c key value now he]

theorem Put_ttl (c : LRUCache K V) (key : K) (value : V) (now : Int) :
    (c.Put key value now).ttl = c.ttl := by
  cases he : mapGet c.items key with
  | none => exact Put_absent_ttl c key value now he
  | some e => rw [Put_of_present c key value now he]

theorem expireLoop_fields (now : Int) (prevs : List (Element K V)) :
    ∀ c : LRUCache K V, (expireLoop now prevs c).capacity = c.capacity ∧
      (expireLoop now prevs c).ttl = c.ttl ∧ (expireLoop now prevs c).list.Sublist c.list := by
  induction prevs with
  | nil => intro c; exact ⟨rfl, rfl, List.Sublist.refl _⟩
  | cons e rest ih =>
    intro c
    unfold expireLoop
    dsimp only
    split
    · obtain ⟨h1, h2, h3⟩ := ih
        { c with list := listRemove c.list e, items := mapDelete c.items e.Value.key }
      exact ⟨h1, h2, h3.trans (List.filter_sublist c.list)⟩
    · exact ⟨rfl, rfl, List.Sublist.refl _⟩

theorem ExpireItems_capacity (c : LRUCache K V) (now : Int) :
    (c.ExpireItems now).capacity = c.capacity :=
  (expireLoop_fields now _ c).1

theorem ExpireItems_ttl (c : LRUCache K V) (now : Int) : (c.ExpireItems now).ttl = c.ttl :=
  (expireLoop_fields now _ c).2.1

/-- The sweep keeps the remaining elements in their order. -/
theorem ExpireItems_sublist (c : LRUCache K V) (now : Int) :
    (c.ExpireItems now).list.Sublist c.list :=
  (expireLoop_fields now _ c).2.2

theorem step_Reachable {capacity ttl : Int} {c : LRUCache K V}
    (h : LRUCache.Reachable capacity ttl c) (op : CacheOp K V) :
    LRUCache.Reachable capacity ttl (c.step op) := by
  cases op with
  | get key now => exact .get c key now h
  | put key value now => exact .put c key value now h
  | expire now => exact .expire c now h

theorem run_Reachable {capacity ttl : Int} (ops : List (CacheOp K V)) :
    ∀ {c : LRUCache K V}, LRUCache.Reachable capacity ttl c →
      LRUCache.Reachable capacity ttl (c.run ops) := by
  induction ops with
  | nil => intro c h; exact h
  | cons op rest ih => intro c h; exact ih (step_Reachable h op)

theorem Reachable_fields {capacity ttl : Int} {c : LRUCache K V}
    (h : LRUCache.Reachable capacity ttl c) : c.capacity = capacity ∧ c.ttl = ttl := by
  induction h with
  | new => exact ⟨rfl, rfl⟩
  | get c key now _ ih => exact ⟨(Get_capacity c key now).trans ih.1, (Get_ttl c key now).trans ih.2⟩
  | put c key value now _ ih =>
    exact ⟨(Put_capacity c key value now).trans ih.1, (Put_ttl c key value now).trans ih.2⟩
  | expire c now _ ih =>
    exact ⟨(ExpireItems_capacity c now).trans ih.1, (ExpireItems_ttl c now).trans ih.2⟩

theorem mapGet_of_mem_keys {m : List (K × Element K V)} {k : K}
    (h : k ∈ m.map (fun kv => kv.1)) : ∃ e, mapGet m k = some e := by
  induction m with
  | nil => cases h
  | cons kv rest ih =>
    obtain ⟨k', e'⟩ := kv
    rw [mapGet_cons]
    by_cases hk : k' = k
    · exact ⟨e', by rw [if_pos hk]⟩
    · rw [if_neg hk]
      rw [List.map_cons, List.mem_cons] at h
      rcases h with h | h
      · exact absurd h.symm hk
      · exact ih h

/-- In a consistent cache the index and the list carry the same keys. -/
theorem Consistent_keys_iff {c : LRUCache K V} (hc : c.Consistent) (k : K) :
    k ∈ c.items.map (fun kv => kv.1) ↔ k ∈ c.list.map (fun e => e.Value.key) := by
  constructor
  · intro h
    obtain ⟨e, he⟩ := mapGet_of_mem_keys h
    obtain ⟨hl, hk⟩ := Consistent_indexed hc he
    exact List.mem_map.mpr ⟨e, hl, hk⟩
  · intro h
    obtain ⟨e, hl, hk⟩ := List.mem_map.mp h
    have := mapGet_mem (hc.index_complete e hl)
    exact List.mem_map.mpr ⟨_, this, hk⟩

/-- In a consistent cache the index has as many entries as the list. -/
theorem Consistent_items_length {c : LRUCache K V} (hc : c.Consistent) :
    c.items.length = c.list.length := by
  have hperm : (c.items.map (fun kv => kv.1)).Perm (c.list.map (fun e => e.Value.key)) :=
    (List.perm_ext_iff_of_nodup hc.index_nodup hc.key_nodup).mpr (Consistent_keys_iff hc)
  simpa using hperm.length_eq

theorem Get_length_le {c : LRUCache K V} (hc : c.Consistent) (key : K) (now : Int) :
    (c.Get key now).1.list.length ≤ c.list.length := by
  cases he : mapGet c.items key with
  | none => rw [Get_of_absent c key now he]
  | some e =>
    by_cases hexp : c.expired e.Value now
    · rw [Get_of_expired c key now he hexp]
      exact List.length_filter_le _ _
    · rw [Get_of_fresh c key now he hexp]
      have hmem := (Consistent_indexed hc he).1
      show (listMoveToFront c.list e).length ≤ c.list.length
      rw [listMoveToFront_of_mem hc.addr_nodup hmem]
      exact le_of_eq (listRemove_perm hc.addr_nodup hmem).length_eq

theorem evictStep_length_lt {c : LRUCache K V} (hcap : 1 ≤ c.capacity)
    (hle : (c.list.length : Int) ≤ c.capacity) :
    (c.evictStep.list.length : Int) < c.capacity := by
  unfold LRUCache.evictStep
  split
  · rename_i hfull
    split
    · rename_i oldest hlast
      have hmem : oldest ∈ c.list := List.mem_of_getLast?_eq_some hlast
      have hlt : (listRemove c.list oldest).length < c.list.length := by
        unfold listRemove
        apply List.length_filter_lt_length_iff_exists.mpr
        exact ⟨oldest, hmem, by simp⟩
      show ((listRemove c.list oldest).length : Int) < c.capacity
      omega
    · rename_i hlast
      rw [List.getLast?_eq_none_iff] at hlast
      rw [hlast] at hfull
      simp at hfull
      omega
  · rename_i hne
    omega

theorem Put_length_le {c : LRUCache K V} (hc : c.Consistent) (hcap : 1 ≤ c.capacity)
    (hle : (c.list.length : Int) ≤ c.capacity) (key : K) (value : V) (now : Int) :
    ((c.Put key value now).list.length : Int) ≤ c.capacity := by
  cases he : mapGet c.items key with
  | none =>
    rw [Put_of_absent c key value now he]
    have := evictStep_length_lt hcap hle
    show (((_ :: c.evictStep.list).length : Nat) : Int) ≤ c.capacity
    rw [List.length_cons]
    omega
  | some e =>
    rw [Put_of_present c key value now he]
    have hmem := (Consistent_indexed hc he).1
    show ((((listMoveToFront c.list e).map _).length : Nat) : Int) ≤ c.capacity
    rw [List.length_map, listMoveToFront_of_mem hc.addr_nodup hmem,
      (listRemove_perm hc.addr_nodup hmem).length_eq]
    exact hle

theorem Reachable_length_le {capacity ttl : Int} (hcap : 1 ≤ capacity) {c : LRUCache K V}
    (h : LRUCache.Reachable capacity ttl c) : (c.list.length : Int) ≤ capacity := by
  induction h with
  | new => simp [NewLRUCache]; omega
  | get c key now hr ih =>
    have := Get_length_le (Reachable_Consistent hr) key now
    omega
  | put c key value now hr ih =>
    have hf := (Reachable_fields hr).1
    have := Put_length_le (Reachable_Consistent hr) (by rw [hf]; exact hcap)
      (by rw [hf]; exact ih) key value now
    rw [hf] at this
    exact this
  | expire c now hr ih =>
    have := (ExpireItems_sublist c now).length_le
    omega

/-- C11: capacity is a hard ceiling.  On a cache created by `NewLRUCache(n, ttl)`
with `n ≥ 1`, after any finite sequence of `Get`, `Put` and `ExpireItems`
calls, at any clock readings, the recency list and the index hold at most `n`
entries. -/
theorem capacity_is_a_hard_ceiling (n ttl : Int) (hn : 1 ≤ n) (ops : List (CacheOp K V)) :
    ((((NewLRUCache n ttl : LRUCache K V).run ops).list.length : Nat) : Int) ≤ n ∧
      ((((NewLRUCache n ttl : LRUCache K V).run ops).items.length : Nat) : Int) ≤ n := by
  have hr : LRUCache.Reachable n ttl ((NewLRUCache n ttl : LRUCache K V).run ops) :=
    run_Reachable ops .new
  have hlen := Reachable_length_le hn hr
  rw [Consistent_items_length (Reachable_Consistent hr)]
  exact ⟨hlen, hlen⟩

end Sequences

/-- Witness of C11: capacity 2; three keys are put, one is read, one is put again
and the sweep runs: two entries are stored. -/
theorem capacity_is_a_hard_ceiling_witness :
    (1 : Int) ≤ 2 ∧
      ((((NewLRUCache 2 600 : LRUCache String String).run
        [.put "key1" "value1" 0, .put "key2" "value2" 1, .put "key3" "value3" 2,
         .get "key2" 3, .put "key3" "value4" 4, .expire 5]).list.length : Nat) : Int) ≤ 2 :=
  ⟨by decide, (capacity_is_a_hard_ceiling 2 600 (by decide) _).1⟩

/-- C20: consistency of the index with the recency list is an invariant.  After
any finite sequence of `Get`, `Put` and `ExpireItems` calls on a cache created
by `NewLRUCache`, no two entries of the recency list carry the same key, the
index holds a key exactly when an entry of the list carries it, each indexed
key maps to an entry of the list that carries that key, and the index has as
many entries as the list. -/
theorem index_and_list_stay_consistent {K V : Type} [DecidableEq K] (capacity ttl : Int)
    (ops : List (CacheOp K V)) :
    (((NewLRUCache capacity ttl : LRUCache K V).run ops).list.map
        (fun e => e.Value.key)).Nodup ∧
      (∀ k, (∃ e, mapGet ((NewLRUCache capacity ttl : LRUCache K V).run ops).items k = some e) ↔
        k ∈ ((NewLRUCache capacity ttl : LRUCache K V).run ops).list.map
          (fun e => e.Value.key)) ∧
      (∀ k e, mapGet ((NewLRUCache capacity ttl : LRUCache K V).run ops).items k = some e →
        e ∈ ((NewLRUCache capacity ttl : LRUCache K V).run ops).list ∧ e.Value.key = k) ∧
      ((NewLRUCache capacity ttl : LRUCache K V).run ops).items.length =
        ((NewLRUCache capacity ttl : LRUCache K V).run ops).list.length := by
  have hc : ((NewLRUCache capacity ttl : LRUCache K V).run ops).Consistent :=
    Reachable_Consistent (run_Reachable ops .new)
  refine ⟨hc.key_nodup, ?_, fun k e h => Consistent_indexed hc h, Consistent_items_length hc⟩
  intro k
  constructor
  · rintro ⟨e, he⟩
    obtain ⟨hl, hk⟩ := Consistent_indexed hc he
    exact List.mem_map.mpr ⟨e, hl, hk⟩
  · intro h
    obtain ⟨e, hl, hk⟩ := List.mem_map.mp h
    exact ⟨e, hk ▸ hc.index_complete e hl⟩

/-! ## Reads and updates of single entries -/

theorem write_self {K V : Type} (e : Element K V) (value : V) (timestamp : Int) :
    e.write e.addr value timestamp =
      { addr := e.addr,
        Value := { key := e.Value.key, value := value, timestamp := timestamp } } := by
  unfold Element.write
  rw [if_pos rfl]

theorem write_of_ne {K V : Type} (x : Element K V) {addr : Nat} (h : x.addr ≠ addr) (value : V)
    (timestamp : Int) : x.write addr value timestamp = x := by
  unfold Element.write
  rw [if_neg h]

/-- A write through the element `e` does not touch the elements left by
`Remove(e)`. -/
theorem map_write_listRemove {K V : Type} (l : List (Element K V)) (e : Element K V) (value : V)
    (timestamp : Int) :
    (listRemove l e).map (fun x => x.write e.addr value timestamp) = listRemove l e := by
  have h : ∀ x ∈ listRemove l e, (fun x => x.write e.addr value timestamp) x = id x := by
    intro x hx
    exact write_of_ne x (mem_listRemove.mp hx).2 value timestamp
  rw [List.map_congr_left h, List.map_id]

section Entries

variable {K V : Type} [DecidableEq K]

/-- After `Put(key, value)` at `now` the key is indexed, with the value and the
time of the `Put`. -/
theorem Put_indexed (c : LRUCache K V) (key : K) (value : V) (now : Int) :
    ∃ e, mapGet (c.Put key value now).items key = some e ∧ e.Value.value = value ∧
      e.Value.timestamp = now := by
  cases he : mapGet c.items key with
  | none => exact ⟨_, Put_absent_self c key value now he, rfl, rfl⟩
  | some e =>
    rw [Put_of_present c key value now he]
    refine ⟨e.write e.addr value now, ?_, ?_, ?_⟩
    · show mapGet (c.items.map (fun kv => (kv.1, kv.2.write e.addr value now))) key = _
      rw [mapGet_map_snd c.items (fun x => x.write e.addr value now), he]
      rfl
    · rw [write_self]
    · rw [write_self]

/-- `Put` on an indexed key in a consistent cache: the list. -/
theorem Put_present_list {c : LRUCache K V} (hc : c.Consistent) (key : K) (value : V)
    (now : Int) {e : Element K V} (he : mapGet c.items key = some e) :
    (c.Put key value now).list =
      { addr := e.addr, Value := { key := key, value := value, timestamp := now } }
        :: listRemove c.list e := by
  obtain ⟨hmem, hk⟩ := Consistent_indexed hc he
  rw [Put_of_present c key value now he]
  show (listMoveToFront c.list e).map (fun x => x.write e.addr value now) = _
  rw [listMoveToFront_of_mem hc.addr_nodup hmem, List.map_cons, map_write_listRemove,
    write_self, hk]

/-- `Put` on an indexed key in a consistent cache: the index under the other
keys. -/
theorem Put_present_other {c : LRUCache K V} (hc : c.Consistent) (key : K) (value : V)
    (now : Int) {e : Element K V} (he : mapGet c.items key = some e) {k : K} (hk : k ≠ key) :
    mapGet (c.Put key value now).items k = mapGet c.items k := by
  obtain ⟨hmem, hkey⟩ := Consistent_indexed hc he
  rw [Put_of_present c key value now he]
  show mapGet (c.items.map (fun kv => (kv.1, kv.2.write e.addr value now))) k = _
  rw [mapGet_map_snd c.items (fun x => x.write e.addr value now)]
  cases hx : mapGet c.items k with
  | none => rfl
  | some x =>
    obtain ⟨hxmem, hxk⟩ := Consistent_indexed hc hx
    have hne : x.addr ≠ e.addr := by
      intro h
      have := addr_inj hc.addr_nodup hxmem hmem h
      exact hk (by rw [← hxk, this, hkey])
    show some (x.write e.addr value now) = some x
    rw [write_of_ne x hne]

/-- C12: lazy expiry on read.  In a consistent cache with TTL > 0, for a key `k`
indexed with the entry `e`: when the age `now - timestamp` of `e` is strictly
greater than the TTL, `Get(k)` reports not found and removes `e`, and nothing
else, from the recency list and from the index; when the age is at most the
TTL, `Get(k)` returns the value of `e`.  So a value returned by `Get` comes
from an entry whose age is at most the TTL. -/
theorem Get_expires_lazily (c : LRUCache K V) (hcons : c.Consistent) (httl : 0 < c.ttl)
    (k : K) (now : Int) (e : Element K V) (he : mapGet c.items k = some e) :
    (now - e.Value.timestamp > c.ttl →
        (c.Get k now).2 = none ∧
        (c.Get k now).1.list = listRemove c.list e ∧
        e ∉ (c.Get k now).1.list ∧
        (∀ x ∈ c.list, x ≠ e → x ∈ (c.Get k now).1.list) ∧
        ((c.Get k now).1.list).Sublist c.list ∧
        mapGet (c.Get k now).1.items k = none ∧
        (∀ k', k' ≠ k → mapGet (c.Get k now).1.items k' = mapGet c.items k')) ∧
      (now - e.Value.timestamp ≤ c.ttl → (c.Get k now).2 = some e.Value.value) ∧
      (∀ v, (c.Get k now).2 = some v → now - e.Value.timestamp ≤ c.ttl) := by
  obtain ⟨hmem, _⟩ := Consistent_indexed hcons he
  refine ⟨?_, ?_, ?_⟩
  · intro hage
    have hexp : c.expired e.Value now := ⟨httl, hage⟩
    rw [Get_of_expired c k now he hexp]
    refine ⟨rfl, rfl, ?_, ?_, List.filter_sublist c.list, mapGet_mapDelete_self _ _, ?_⟩
    · intro h
      exact (mem_listRemove.mp h).2 rfl
    · intro x hx hne
      exact mem_listRemove.mpr ⟨hx, fun h => hne (addr_inj hcons.addr_nodup hx hmem h)⟩
    · intro k' hk'
      exact mapGet_mapDelete_ne _ hk'
  · intro hage
    have hfresh : ¬ c.expired e.Value now := fun h => absurd h.2 (by omega)
    rw [Get_of_fresh c k now he hfresh]
  · intro v hv
    obtain ⟨e', he', _, hfresh, _⟩ := Get_some c k now hv
    rw [he] at he'
    cases he'
    by_contra hage
    exact hfresh ⟨httl, by omega⟩

/-- C13: `Put`/`Get` round trip.  For every cache (of any capacity, in particular
capacity >= 1), key `k` and value `v`, whether or not `k` was present, a
`Get(k)` that directly follows `Put(k, v)` and is made before the TTL has
elapsed since the `Put` (TTL disabled, or `now' - now` at most the TTL)
returns `v`. -/
theorem Put_then_Get_returns_value (c : LRUCache K V) (k : K) (v : V) (now now' : Int)
    (hfresh : ¬ (c.ttl > 0 ∧ now' - now > c.ttl)) :
    ((c.Put k v now).Get k now').2 = some v := by
  obtain ⟨e, he, hv, ht⟩ := Put_indexed c k v now
  have hf : ¬ (c.Put k v now).expired e.Value now' := by
    unfold LRUCache.expired
    rw [Put_ttl, ht]
    exact hfresh
  rw [Get_of_fresh _ k now' he hf, hv]

/-- C14: an update resets recency without evicting.  In a consistent cache, for a
key `k` indexed with the entry `e`, `Put(k, v)` at `now` puts the entry of `k`,
now holding `v` and the timestamp `now`, at the front of the recency list in
front of the other entries, which keep their order and content; the index
holds the same keys and maps every other key as before; nothing is evicted,
whatever the capacity.  With at least two entries stored, the entry at the
back afterwards carries a key other than `k`, and it is that entry, not `k`,
that the next `Put` of a new key into the full cache evicts. -/
theorem Put_update_resets_recency (c : LRUCache K V) (hcons : c.Consistent) (k : K) (v : V)
    (now : Int) (e : Element K V) (he : mapGet c.items k = some e) :
    (c.Put k v now).list =
        { addr := e.addr, Value := { key := k, value := v, timestamp := now } }
          :: listRemove c.list e ∧
      (∀ x ∈ c.list, x ≠ e → x ∈ listRemove c.list e) ∧
      (listRemove c.list e).Sublist c.list ∧
      mapGet (c.Put k v now).items k =
        some { addr := e.addr, Value := { key := k, value := v, timestamp := now } } ∧
      (∀ k', k' ≠ k → mapGet (c.Put k v now).items k' = mapGet c.items k') ∧
      (c.Put k v now).items.map (fun kv => kv.1) = c.items.map (fun kv => kv.1) ∧
      (c.Put k v now).list.length = c.list.length ∧
      (2 ≤ c.list.length →
        ∃ oldest, (c.Put k v now).list.getLast? = some oldest ∧ oldest ∈ c.list ∧
          oldest.Value.key ≠ k ∧
          ∀ (k2 : K) (v2 : V) (now2 : Int), mapGet (c.Put k v now).items k2 = none →
            ((c.Put k v now).list.length : Int) = (c.Put k v now).capacity →
            mapGet ((c.Put k v now).Put k2 v2 now2).items oldest.Value.key = none ∧
              mapGet ((c.Put k v now).Put k2 v2 now2).items k =
                some { addr := e.addr,
                       Value := { key := k, value := v, timestamp := now } }) := by
  obtain ⟨hmem, hkey⟩ := Consistent_indexed hcons he
  have hlist := Put_present_list hcons k v now he
  have hperm := listRemove_perm hcons.addr_nodup hmem
  have hidx : mapGet (c.Put k v now).items k =
      some { addr := e.addr, Value := { key := k, value := v, timestamp := now } } := by
    rw [Put_of_present c k v now he]
    show mapGet (c.items.map (fun kv => (kv.1, kv.2.write e.addr v now))) k = _
    rw [mapGet_map_snd c.items (fun x => x.write e.addr v now), he]
    show some (e.write e.addr v now) = _
    rw [write_self, hkey]
  have hlen : (c.Put k v now).list.length = c.list.length := by
    rw [hlist, List.length_cons, ← hperm.length_eq, List.length_cons]
  refine ⟨hlist, ?_, List.filter_sublist c.list, hidx, ?_, ?_, hlen, ?_⟩
  · intro x hx hne
    exact mem_listRemove.mpr ⟨hx, fun h => hne (addr_inj hcons.addr_nodup hx hmem h)⟩
  · intro k' hk'
    exact Put_present_other hcons k v now he hk'
  · rw [Put_of_present c k v now he]
    show (c.items.map (fun kv => (kv.1, kv.2.write e.addr v now))).map (fun kv => kv.1) = _
    rw [List.map_map]
    rfl
  · intro htwo
    have hcons' : (c.Put k v now).Consistent := Consistent_Put hcons k v now
    have hrest_ne : listRemove c.list e ≠ [] := by
      intro h
      have := hperm.length_eq
      rw [h] at this
      simp at this
      omega
    cases hlast : (listRemove c.list e).getLast? with
    | none => exact absurd (List.getLast?_eq_none_iff.mp hlast) hrest_ne
    | some oldest =>
      have hold_rest : oldest ∈ listRemove c.list e := List.mem_of_getLast?_eq_some hlast
      obtain ⟨hold_mem, hold_addr⟩ := mem_listRemove.mp hold_rest
      have hold_key : oldest.Value.key ≠ k := by
        intro h
        have := key_inj hcons.key_nodup hold_mem hmem (h.trans hkey.symm)
        exact hold_addr (by rw [this])
      have hlast' : (c.Put k v now).list.getLast? = some oldest := by
        rw [hlist]
        obtain ⟨y, ys, hys⟩ := List.exists_cons_of_ne_nil hrest_ne
        rw [hys] at hlast ⊢
        rw [List.getLast?_cons_cons]
        exact hlast
      refine ⟨oldest, hlast', hold_mem, hold_key, ?_⟩
      intro k2 v2 now2 hk2 hfull
      have hk2k : k ≠ k2 := by
        intro h
        rw [← h, hidx] at hk2
        cases hk2
      have hev : (c.Put k v now).evictStep =
          { (c.Put k v now) with
            list := listRemove (c.Put k v now).list oldest
            items := mapDelete (c.Put k v now).items oldest.Value.key } := by
        unfold LRUCache.evictStep
        rw [if_pos hfull, hlast']
      have hold_idx : mapGet (c.Put k v now).items oldest.Value.key ≠ none := by
        have hin : oldest ∈ (c.Put k v now).list := List.mem_of_getLast?_eq_some hlast'
        rw [hcons'.index_complete oldest hin]
        exact Option.some_ne_none _
      have hold_k2 : oldest.Value.key ≠ k2 := by
        intro h
        rw [h] at hold_idx
        exact hold_idx hk2
      rw [Put_of_absent _ k2 v2 now2 hk2, hev]
      dsimp only
      rw [mapGet_mapSet_ne _ _ hold_k2, mapGet_mapSet_ne _ _ hk2k, mapGet_mapDelete_self,
        mapGet_mapDelete_ne _ (Ne.symm hold_key)]
      exact ⟨rfl, hidx⟩

end Entries

/-- Witness of C12: TTL 1, `key1` put at time 0; a `Get` at time 2 (age 2) reports
not found, a `Get` at time 1 (age 1) returns the value. -/
theorem Get_expires_lazily_witness :
    (((NewLRUCache 2 1 : LRUCache String String).Put "key1" "value1" 0).Get "key1" 2).2 = none ∧
      (((NewLRUCache 2 1 : LRUCache String String).Put "key1" "value1" 0).Get "key1" 1).2 =
        some "value1" :=
  ⟨((Get_expires_lazily ((NewLRUCache 2 1 : LRUCache String String).Put "key1" "value1" 0)
      (by decide) (by decide) "key1" 2 ⟨0, ⟨"key1", "value1", 0⟩⟩ (by decide)).1
      (by decide)).1,
   (Get_expires_lazily ((NewLRUCache 2 1 : LRUCache String String).Put "key1" "value1" 0)
      (by decide) (by decide) "key1" 1 ⟨0, ⟨"key1", "value1", 0⟩⟩ (by decide)).2.1
      (by decide)⟩

/-- Witness of C13, after `TestLRUCache_UpdateExistingItem`: `key1` is put, put
again with a new value, and read. -/
theorem Put_then_Get_returns_value_witness :
    ((((NewLRUCache 2 600 : LRUCache String String).Put "key1" "value1" 0).Put
      "key1" "value1_updated" 1).Get "key1" 2).2 = some "value1_updated" :=
  Put_then_Get_returns_value ((NewLRUCache 2 600 : LRUCache String String).Put "key1" "value1" 0)
    "key1" "value1_updated" 1 2 (by decide)

/-- Witness of C14: capacity 2, `Put` of `k1`, `k2`, `k1` again (update), then
`k3`: `k2` is evicted and `k1` is kept with its updated value. -/
theorem Put_update_resets_recency_witness :
    mapGet (((((NewLRUCache 2 600 : LRUCache String String).Put "k1" "v1" 0).Put
        "k2" "v2" 1).Put "k1" "v1b" 2).Put "k3" "v3" 3).items "k2" = none ∧
      mapGet (((((NewLRUCache 2 600 : LRUCache String String).Put "k1" "v1" 0).Put
        "k2" "v2" 1).Put "k1" "v1b" 2).Put "k3" "v3" 3).items "k1" =
        some ⟨0, ⟨"k1", "v1b", 2⟩⟩ := by
  obtain ⟨_, _, _, _, _, _, _, h⟩ := Put_update_resets_recency
    (((NewLRUCache 2 600 : LRUCache String String).Put "k1" "v1" 0).Put "k2" "v2" 1)
    (by decide) "k1" "v1b" 2 ⟨0, ⟨"k1", "v1", 0⟩⟩ (by decide)
  obtain ⟨oldest, hlast, _, _, hnext⟩ := h (by decide)
  have h0 : ((((NewLRUCache 2 600 : LRUCache String String).Put "k1" "v1" 0).Put
      "k2" "v2" 1).Put "k1" "v1b" 2).list.getLast? = some ⟨1, ⟨"k2", "v2", 1⟩⟩ := by decide
  rw [h0] at hlast
  cases hlast
  exact hnext "k3" "v3" 3 (by decide) (by decide)

section Frames

variable {K V : Type} [DecidableEq K]

/-- A run of `Get` calls adds nothing to the index and keeps the TTL. -/
theorem run_gets_items_sub (reads : List (K × Int)) :
    ∀ (c : LRUCache K V),
      (c.run (reads.map (fun r => CacheOp.get r.1 r.2))).ttl = c.ttl ∧
      ∀ k e, mapGet (c.run (reads.map (fun r => CacheOp.get r.1 r.2))).items k = some e →
        mapGet c.items k = some e := by
  induction reads with
  | nil => intro c; exact ⟨rfl, fun _ _ h => h⟩
  | cons r rest ih =>
    intro c
    obtain ⟨h1, h2⟩ := ih (c.Get r.1 r.2).1
    refine ⟨h1.trans (Get_ttl c r.1 r.2), ?_⟩
    intro k e h
    exact Get_items_sub c r.1 r.2 (h2 k e h)

/-- The sweep does nothing when the TTL is zero or negative. -/
theorem ExpireItems_of_ttl_nonpos (c : LRUCache K V) (httl : c.ttl ≤ 0) (now : Int) :
    c.ExpireItems now = c := by
  unfold LRUCache.ExpireItems
  cases c.list.reverse with
  | nil => rfl
  | cons e rest =>
    unfold expireLoop
    dsimp only
    rw [if_neg (fun h => absurd h.1 (by omega))]

/-- When `Put` makes an indexed key disappear from the index, the `Put` was for
a key that was not indexed, the list held exactly `capacity` entries, and the
key that disappeared is the one at the back of the list. -/
theorem Put_removes_only_by_eviction (c : LRUCache K V) (k : K) (v : V) (now : Int) (k' : K)
    (hin : ∃ e, mapGet c.items k' = some e) (hout : mapGet (c.Put k v now).items k' = none) :
    mapGet c.items k = none ∧ (c.list.length : Int) = c.capacity ∧
      ∃ oldest, c.list.getLast? = some oldest ∧ oldest.Value.key = k' := by
  obtain ⟨e', he'⟩ := hin
  cases he : mapGet c.items k with
  | some e =>
    rw [Put_of_present c k v now he] at hout
    change mapGet (c.items.map (fun kv => (kv.1, kv.2.write e.addr v now))) k' = none at hout
    rw [mapGet_map_snd c.items (fun x => x.write e.addr v now), he'] at hout
    cases hout
  | none =>
    refine ⟨rfl, ?_⟩
    have hk : k' ≠ k := by
      intro h
      rw [h, he] at he'
      cases he'
    rw [Put_of_absent c k v now he] at hout
    dsimp only at hout
    rw [mapGet_mapSet_ne _ _ hk] at hout
    unfold LRUCache.evictStep at hout
    by_cases hfull : (c.list.length : Int) = c.capacity
    · rw [if_pos hfull] at hout
      refine ⟨hfull, ?_⟩
      cases hlast : c.list.getLast? with
      | none => rw [hlast] at hout; dsimp only at hout; rw [he'] at hout; cases hout
      | some oldest =>
        rw [hlast] at hout
        dsimp only at hout
        refine ⟨oldest, rfl, ?_⟩
        by_contra hne
        rw [mapGet_mapDelete_ne _ (fun h => hne h.symm), he'] at hout
        cases hout
    · rw [if_neg hfull, he'] at hout
      cases hout

end Frames

/-- C15: `Get` never refreshes the timestamp.  In a consistent cache, a `Get` that
finds a value leaves the index, hence the key, value and timestamp of every
entry, as it was, and changes the recency list only by moving the entry read
to the front, the other entries keeping their order.  Therefore, with TTL > 0,
after `Put(k, v)` at `t0` followed by any number of `Get` calls at any times, a
`Get(k)` at a time later than `t0` by more than the TTL reports not found. -/
theorem Get_never_refreshes_timestamp {K V : Type} [DecidableEq K] :
    (∀ (c : LRUCache K V), c.Consistent → ∀ (k : K) (now : Int) (v : V),
        (c.Get k now).2 = some v →
        ∃ e, mapGet c.items k = some e ∧ e.Value.value = v ∧
          (c.Get k now).1.items = c.items ∧
          (c.Get k now).1.list = e :: listRemove c.list e ∧ e ∈ c.list ∧
          (listRemove c.list e).Sublist c.list ∧
          (∀ x ∈ c.list, x ≠ e → x ∈ listRemove c.list e)) ∧
      (∀ (c : LRUCache K V) (k : K) (v : V) (t0 : Int) (reads : List (K × Int)) (now : Int),
        0 < c.ttl → now - t0 > c.ttl →
        (((c.Put k v t0).run (reads.map (fun r => CacheOp.get r.1 r.2))).Get k now).2 = none) := by
  constructor
  · intro c hcons k now v h
    obtain ⟨e, he, hv, hfresh, hitems⟩ := Get_some c k now h
    obtain ⟨hmem, _⟩ := Consistent_indexed hcons he
    refine ⟨e, he, hv, hitems, ?_, hmem, List.filter_sublist c.list, ?_⟩
    · rw [Get_of_fresh c k now he hfresh]
      exact listMoveToFront_of_mem hcons.addr_nodup hmem
    · intro x hx hne
      exact mem_listRemove.mpr ⟨hx, fun h => hne (addr_inj hcons.addr_nodup hx hmem h)⟩
  · intro c k v t0 reads now httl hage
    obtain ⟨hrun_ttl, hrun_sub⟩ := run_gets_items_sub reads (c.Put k v t0)
    cases hget : mapGet ((c.Put k v t0).run (reads.map (fun r => CacheOp.get r.1 r.2))).items k with
    | none => rw [Get_of_absent _ k now hget]
    | some e =>
      obtain ⟨e0, he0, _, ht0⟩ := Put_indexed c k v t0
      have := hrun_sub k e hget
      rw [he0] at this
      cases this
      have hexp : ((c.Put k v t0).run (reads.map (fun r => CacheOp.get r.1 r.2))).expired
          e.Value now := by
        unfold LRUCache.expired
        rw [hrun_ttl, Put_ttl, ht0]
        exact ⟨httl, hage⟩
      rw [Get_of_expired _ k now hget hexp]

/-- Witness of C15: TTL 10; `a` is put at 0 and `b` at 5; a `Get(a)` at 6 finds
`value_a`; after that read and another one at 9, a `Get(a)` at 11 reports not
found. -/
theorem Get_never_refreshes_timestamp_witness :
    ((((NewLRUCache 2 10 : LRUCache String String).Put "a" "value_a" 0).Put
        "b" "value_b" 5).Get "a" 6).1.items =
        (((NewLRUCache 2 10 : LRUCache String String).Put "a" "value_a" 0).Put
          "b" "value_b" 5).items ∧
      ((((NewLRUCache 2 10 : LRUCache String String).Put "a" "value_a" 0).run
        ([("a", 6), ("a", 9)].map (fun r => CacheOp.get r.1 r.2))).Get "a" 11).2 = none := by
  obtain ⟨e, _, _, hitems, _⟩ := (Get_never_refreshes_timestamp (K := String) (V := String)).1
    (((NewLRUCache 2 10 : LRUCache String String).Put "a" "value_a" 0).Put "b" "value_b" 5)
    (by decide) "a" 6 "value_a" (by decide)
  exact ⟨hitems, (Get_never_refreshes_timestamp (K := String) (V := String)).2
    (NewLRUCache 2 10) "a" "value_a" 0 [("a", 6), ("a", 9)] 11 (by decide) (by decide)⟩

/-- C16: a zero or negative TTL disables time expiry.  In a consistent cache with
`ttl <= 0`, at any clock reading: `Get` on an indexed key returns its value,
and no `Get` removes anything (the index is unchanged, the recency list is
only reordered); `ExpireItems` leaves the cache as it is; and a `Put` makes an
indexed key disappear only by capacity eviction, that is when it inserts a
new key into a list holding exactly `capacity` entries, and then the key at
the back of the list. -/
theorem nonpositive_ttl_disables_expiry {K V : Type} [DecidableEq K] (c : LRUCache K V)
    (hcons : c.Consistent) (httl : c.ttl ≤ 0) :
    (∀ (k : K) (now : Int),
        (∀ e, mapGet c.items k = some e → (c.Get k now).2 = some e.Value.value) ∧
        (c.Get k now).1.items = c.items ∧ ((c.Get k now).1.list).Perm c.list) ∧
      (∀ now : Int, c.ExpireItems now = c) ∧
      (∀ (k : K) (v : V) (now : Int) (k' : K), (∃ e, mapGet c.items k' = some e) →
        mapGet (c.Put k v now).items k' = none →
        mapGet c.items k = none ∧ (c.list.length : Int) = c.capacity ∧
          ∃ oldest, c.list.getLast? = some oldest ∧ oldest.Value.key = k') := by
  refine ⟨?_, fun now => ExpireItems_of_ttl_nonpos c httl now,
    fun k v now k' hin hout => Put_removes_only_by_eviction c k v now k' hin hout⟩
  intro k now
  cases he : mapGet c.items k with
  | none =>
    rw [Get_of_absent c k now he]
    exact ⟨fun e h => (by cases h), rfl, List.Perm.refl _⟩
  | some e =>
    have hfresh : ¬ c.expired e.Value now := fun h => absurd h.1 (by omega)
    obtain ⟨hmem, _⟩ := Consistent_indexed hcons he
    rw [Get_of_fresh c k now he hfresh]
    refine ⟨fun e' h => (by cases h; rfl), rfl, ?_⟩
    show (listMoveToFront c.list e).Perm c.list
    rw [listMoveToFront_of_mem hcons.addr_nodup hmem]
    exact listRemove_perm hcons.addr_nodup hmem

/-- Witness of C16: TTL 0; `key1` put at time 0 is still returned at time
1000000, and a sweep at that time changes nothing. -/
theorem nonpositive_ttl_disables_expiry_witness :
    (((NewLRUCache 2 0 : LRUCache String String).Put "key1" "value1" 0).Get
        "key1" 1000000).2 = some "value1" ∧
      ((NewLRUCache 2 0 : LRUCache String String).Put "key1" "value1" 0).ExpireItems 1000000 =
        (NewLRUCache 2 0 : LRUCache String String).Put "key1" "value1" 0 :=
  ⟨((nonpositive_ttl_disables_expiry
      ((NewLRUCache 2 0 : LRUCache String String).Put "key1" "value1" 0)
      (by decide) (by decide)).1 "key1" 1000000).1 ⟨0, ⟨"key1", "value1", 0⟩⟩ (by decide),
   (nonpositive_ttl_disables_expiry
      ((NewLRUCache 2 0 : LRUCache String String).Put "key1" "value1" 0)
      (by decide) (by decide)).2.1 1000000⟩

/-! ## Capacity zero or negative -/

section NoCapacity

variable {K V : Type} [DecidableEq K]

/-- With a capacity of zero or less the eviction step of `Put` removes nothing:
the test `Len() == capacity` can hold only on the empty list, where `Back()` is
`nil`. -/
theorem evictStep_of_capacity_nonpos (c : LRUCache K V) (hcap : c.capacity ≤ 0) :
    c.evictStep = c := by
  unfold LRUCache.evictStep
  split
  · rename_i hfull
    have hnil : c.list = [] := by
      apply List.eq_nil_of_length_eq_zero
      omega
    rw [hnil]
    rfl
  · rfl

/-- A run of `Put` calls with distinct keys, none of them indexed, on a cache of
capacity zero or less: every call pushes a new entry and nothing is removed. -/
theorem run_puts_of_capacity_nonpos (puts : List (K × V × Int)) :
    ∀ (c : LRUCache K V), c.capacity ≤ 0 → (∀ p ∈ puts, mapGet c.items p.1 = none) →
      (puts.map (fun p => p.1)).Nodup →
      ((c.run (puts.map (fun p => CacheOp.put p.1 p.2.1 p.2.2))).list.map
          (fun e => (e.Value.key, e.Value.value, e.Value.timestamp))) =
        puts.reverse ++ c.list.map (fun e => (e.Value.key, e.Value.value, e.Value.timestamp)) := by
  induction puts with
  | nil => intro c _ _ _; rfl
  | cons p rest ih =>
    intro c hcap habs hnd
    rw [List.map_cons, List.nodup_cons] at hnd
    have hp : mapGet c.items p.1 = none := habs p (List.mem_cons_self _ _)
    have hput : c.Put p.1 p.2.1 p.2.2 =
        { c with
          list := { addr := c.nextAddr,
                    Value := { key := p.1, value := p.2.1, timestamp := p.2.2 } } :: c.list
          items := mapSet c.items p.1
            { addr := c.nextAddr,
              Value := { key := p.1, value := p.2.1, timestamp := p.2.2 } }
          nextAddr := c.nextAddr + 1 } := by
      rw [Put_of_absent c p.1 p.2.1 p.2.2 hp, evictStep_of_capacity_nonpos c hcap]
    show (((c.Put p.1 p.2.1 p.2.2).run _).list.map _) = _
    rw [ih (c.Put p.1 p.2.1 p.2.2) (by rw [Put_capacity]; exact hcap) ?_ hnd.2]
    · rw [hput]
      simp
    · intro q hq
      have hne : q.1 ≠ p.1 := fun h => hnd.1 (h ▸ List.mem_map_of_mem _ hq)
      rw [hput]
      show mapGet (mapSet c.items p.1 _) q.1 = none
      rw [mapGet_mapSet_ne _ _ hne]
      exact habs q (List.mem_cons_of_mem _ hq)

end NoCapacity

/-- C17 (counterexample): capacity 0.  After `Put` of `key1` and `key2` the cache
stores two entries: the second `Put`, of a new key into a non-empty cache,
evicted nothing (`key1` is still indexed).  The same happens with capacity
`-1`. -/
theorem nonpositive_capacity_stores_two_entries :
    ((NewLRUCache 0 600 : LRUCache String String).run
        [.put "key1" "value1" 0, .put "key2" "value2" 1]).list.length = 2 ∧
      mapGet ((NewLRUCache 0 600 : LRUCache String String).run
        [.put "key1" "value1" 0, .put "key2" "value2" 1]).items "key1" =
        some ⟨0, ⟨"key1", "value1", 0⟩⟩ ∧
      ((NewLRUCache (-1) 600 : LRUCache String String).run
        [.put "key1" "value1" 0, .put "key2" "value2" 1]).list.length = 2 := by
  decide

/-- C17 (amended): with a capacity of zero or less nothing is ever evicted.  For
every sequence of `Put` calls with distinct keys on a cache created by
`NewLRUCache(c, ttl)` with `c <= 0`, the calls all return, the recency list
holds exactly the entries put, the last one first, so the number of stored
entries is the number of keys put, and every key put is indexed with its
value and the time of its `Put`. -/
theorem nonpositive_capacity_never_evicts {K V : Type} [DecidableEq K] (capacity ttl : Int)
    (hcap : capacity ≤ 0) (puts : List (K × V × Int))
    (hkeys : (puts.map (fun p => p.1)).Nodup) :
    (((NewLRUCache capacity ttl : LRUCache K V).run
          (puts.map (fun p => CacheOp.put p.1 p.2.1 p.2.2))).list.map
        (fun e => (e.Value.key, e.Value.value, e.Value.timestamp))) = puts.reverse ∧
      ((NewLRUCache capacity ttl : LRUCache K V).run
          (puts.map (fun p => CacheOp.put p.1 p.2.1 p.2.2))).list.length = puts.length ∧
      ∀ p ∈ puts, ∃ e,
        mapGet ((NewLRUCache capacity ttl : LRUCache K V).run
          (puts.map (fun p => CacheOp.put p.1 p.2.1 p.2.2))).items p.1 = some e ∧
        e.Value.value = p.2.1 ∧ e.Value.timestamp = p.2.2 := by
  have hlist := run_puts_of_capacity_nonpos puts (NewLRUCache capacity ttl : LRUCache K V)
    hcap (fun _ _ => rfl) hkeys
  have hlist' : (((NewLRUCache capacity ttl : LRUCache K V).run
        (puts.map (fun p => CacheOp.put p.1 p.2.1 p.2.2))).list.map
      (fun e => (e.Value.key, e.Value.value, e.Value.timestamp))) = puts.reverse := by
    rw [hlist]
    simp [NewLRUCache]
  have hc : ((NewLRUCache capacity ttl : LRUCache K V).run
      (puts.map (fun p => CacheOp.put p.1 p.2.1 p.2.2))).Consistent :=
    Reachable_Consistent (run_Reachable _ .new)
  refine ⟨hlist', ?_, ?_⟩
  · have := congrArg List.length hlist'
    simpa using this
  · intro p hp
    have hmem : p ∈ (((NewLRUCache capacity ttl : LRUCache K V).run
        (puts.map (fun p => CacheOp.put p.1 p.2.1 p.2.2))).list.map
        (fun e => (e.Value.key, e.Value.value, e.Value.timestamp))) := by
      rw [hlist']
      exact List.mem_reverse.mpr hp
    obtain ⟨e, he, hep⟩ := List.mem_map.mp hmem
    have hidx := hc.index_complete e he
    have h1 : e.Value.key = p.1 := congrArg (fun q => q.1) hep
    have h2 : e.Value.value = p.2.1 := congrArg (fun q => q.2.1) hep
    have h3 : e.Value.timestamp = p.2.2 := congrArg (fun q => q.2.2) hep
    rw [h1] at hidx
    exact ⟨e, hidx, h2, h3⟩

/-- Witness of C17 (amended): capacity 0 and three distinct keys: three entries
are stored. -/
theorem nonpositive_capacity_never_evicts_witness :
    ((NewLRUCache 0 600 : LRUCache String String).run
      ([("key1", "value1", 0), ("key2", "value2", 1), ("key3", "value3", 2)].map
        (fun p => CacheOp.put p.1 p.2.1 p.2.2))).list.length = 3 :=
  (nonpositive_capacity_never_evicts 0 600 (by decide)
    [("key1", "value1", 0), ("key2", "value2", 1), ("key3", "value3", 2)] (by decide)).2.1

/-- C19: the sweep stops at the first entry, from the back, that is not expired,
and can leave an expired entry behind.  With TTL 10: `a` is put at 0, `b` at 5,
and `a` is read at 6, which moves `a` (timestamp 0) in front of `b` (timestamp
5).  At time 12 the age of `a` exceeds the TTL and that of `b` does not;
`ExpireItems` at 12 removes nothing, and `a` is still stored. -/
theorem sweep_leaves_expired_entry_behind :
    ∃ (ttl now : Int) (ops : List (CacheOp String String)) (old fresh : Element String String),
      0 < ttl ∧ (∀ op ∈ ops, ∀ t, op ≠ CacheOp.expire t) ∧
      ((NewLRUCache 2 ttl : LRUCache String String).run ops).list = [old, fresh] ∧
      now - old.Value.timestamp > ttl ∧ now - fresh.Value.timestamp ≤ ttl ∧
      ((NewLRUCache 2 ttl : LRUCache String String).run ops).ExpireItems now =
        (NewLRUCache 2 ttl : LRUCache String String).run ops ∧
      old ∈ (((NewLRUCache 2 ttl : LRUCache String String).run ops).ExpireItems now).list ∧
      mapGet (((NewLRUCache 2 ttl : LRUCache String String).run ops).ExpireItems now).items
        old.Value.key = some old := by
  refine ⟨10, 12, [.put "a" "value_a" 0, .put "b" "value_b" 5, .get "a" 6],
    ⟨0, ⟨"a", "value_a", 0⟩⟩, ⟨1, ⟨"b", "value_b", 5⟩⟩, by decide, ?_, by decide, by decide,
    by decide, by decide, by decide, by decide⟩
  intro op hop t h
  subst h
  simp at hop

/-! ## The sweep on a cache filled by `Put` -/

/-- On a list in which the entries satisfying `p` come first, `takeWhile p`
takes all of them. -/
theorem takeWhile_eq_filter_of_pairwise {α : Type} (p : α → Bool) (l : List α)
    (h : l.Pairwise (fun a b => p b = true → p a = true)) : l.takeWhile p = l.filter p := by
  induction l with
  | nil => rfl
  | cons a t ih =>
    rw [List.pairwise_cons] at h
    by_cases ha : p a = true
    · rw [List.takeWhile_cons_of_pos ha, List.filter_cons_of_pos ha, ih h.2]
    · rw [List.takeWhile_cons_of_neg ha, List.filter_cons_of_neg ha]
      symm
      apply List.filter_eq_nil_iff.mpr
      intro b hb hpb
      exact ha (h.1 b hb hpb)

section Sweep

variable {K V : Type} [DecidableEq K]

/-- The sweep removes the longest run of expired entries at the back of the
list, and stops there. -/
theorem expireLoop_eq_removeAll (now : Int) (prevs : List (Element K V)) :
    ∀ c : LRUCache K V,
      expireLoop now prevs c =
        c.removeAll (prevs.takeWhile (fun e => decide (c.expired e.Value now))) := by
  induction prevs with
  | nil => intro c; rfl
  | cons e rest ih =>
    intro c
    unfold expireLoop
    dsimp only
    by_cases hexp : c.expired e.Value now
    · have hp : (fun e => decide (c.expired e.Value now)) e = true := by simpa using hexp
      have hif : c.ttl > 0 ∧ now - e.Value.timestamp > c.ttl := hexp
      have htw : (e :: rest).takeWhile (fun e => decide (c.expired e.Value now)) =
          e :: rest.takeWhile (fun e => decide (c.expired e.Value now)) :=
        List.takeWhile_cons_of_pos hp
      rw [if_pos hif, htw, ih]
      rfl
    · have hp : ¬ (fun e => decide (c.expired e.Value now)) e = true := by simpa using hexp
      have hif : ¬ (c.ttl > 0 ∧ now - e.Value.timestamp > c.ttl) := hexp
      have htw : (e :: rest).takeWhile (fun e => decide (c.expired e.Value now)) = [] :=
        List.takeWhile_cons_of_neg hp
      rw [if_neg hif, htw]
      rfl

theorem mem_removeAll_list (removed : List (Element K V)) :
    ∀ (c : LRUCache K V) (x : Element K V),
      x ∈ (c.removeAll removed).list ↔ x ∈ c.list ∧ ∀ r ∈ removed, x.addr ≠ r.addr := by
  induction removed with
  | nil => intro c x; simp [LRUCache.removeAll]
  | cons r rest ih =>
    intro c x
    unfold LRUCache.removeAll
    rw [ih]
    show x ∈ listRemove c.list r ∧ _ ↔ _
    rw [mem_listRemove]
    constructor
    · rintro ⟨⟨h1, h2⟩, h3⟩
      refine ⟨h1, ?_⟩
      intro r' hr'
      rcases List.mem_cons.mp hr' with h | h
      · rw [h]; exact h2
      · exact h3 r' h
    · rintro ⟨h1, h2⟩
      exact ⟨⟨h1, h2 r (List.mem_cons_self _ _)⟩,
        fun r' hr' => h2 r' (List.mem_cons_of_mem _ hr')⟩

theorem evictStep_sublist (c : LRUCache K V) : c.evictStep.list.Sublist c.list := by
  unfold LRUCache.evictStep
  split
  · split
    · exact List.filter_sublist c.list
    · exact List.Sublist.refl _
  · exact List.Sublist.refl _

/-- After `Put` at `now` on a consistent cache, the list is an entry stamped `now`
in front of entries that were in the list before, in their former order. -/
theorem Put_list_cons {c : LRUCache K V} (hc : c.Consistent) (key : K) (value : V)
    (now : Int) :
    ∃ head rest, (c.Put key value now).list = head :: rest ∧ head.Value.timestamp = now ∧
      rest.Sublist c.list := by
  cases he : mapGet c.items key with
  | none =>
    rw [Put_of_absent c key value now he]
    exact ⟨_, _, rfl, rfl, evictStep_sublist c⟩
  | some e =>
    rw [Put_present_list hc key value now he]
    exact ⟨_, _, rfl, rfl, List.filter_sublist c.list⟩

/-- In a run of `Put` and `ExpireItems` calls under a non-decreasing clock, the
recency list stays ordered by timestamp, the most recent first. -/
theorem run_puts_time_ordered (ops : List (CacheOp K V)) :
    ∀ c : LRUCache K V, c.Consistent → (∀ op ∈ ops, op.isGet = false) →
      (ops.map CacheOp.now).Pairwise (fun a b => a ≤ b) →
      c.list.Pairwise (fun a b => b.Value.timestamp ≤ a.Value.timestamp) →
      (∀ x ∈ c.list, ∀ op ∈ ops, x.Value.timestamp ≤ op.now) →
      (c.run ops).list.Pairwise (fun a b => b.Value.timestamp ≤ a.Value.timestamp) := by
  induction ops with
  | nil => intro c _ _ _ h _; exact h
  | cons op rest ih =>
    intro c hc hput hclock hsorted hbound
    rw [List.map_cons, List.pairwise_cons] at hclock
    have hput' : ∀ op' ∈ rest, op'.isGet = false :=
      fun op' h => hput op' (List.mem_cons_of_mem _ h)
    have hop_le : ∀ op' ∈ rest, op.now ≤ op'.now :=
      fun op' h => hclock.1 _ (List.mem_map_of_mem _ h)
    show ((c.step op).run rest).list.Pairwise _
    cases op with
    | get key now =>
      have := hput _ (List.mem_cons_self _ _)
      simp [CacheOp.isGet] at this
    | put key value now =>
      obtain ⟨head, tail, hlist, hts, hsub⟩ := Put_list_cons hc key value now
      have hmem_tail : ∀ y ∈ tail, y ∈ c.list := fun y hy => hsub.subset hy
      apply ih (c.Put key value now) (Consistent_Put hc key value now) hput' hclock.2
      · rw [hlist, List.pairwise_cons]
        refine ⟨?_, hsorted.sublist hsub⟩
        intro y hy
        rw [hts]
        exact hbound y (hmem_tail y hy) _ (List.mem_cons_self _ _)
      · intro x hx op' hop'
        rw [hlist] at hx
        rcases List.mem_cons.mp hx with h | h
        · rw [h, hts]; exact hop_le op' hop'
        · exact hbound x (hmem_tail x h) op' (List.mem_cons_of_mem _ hop')
    | expire now =>
      have hsub := ExpireItems_sublist c now
      apply ih (c.ExpireItems now) (Consistent_ExpireItems hc now) hput' hclock.2
        (hsorted.sublist hsub)
      intro x hx op' hop'
      exact hbound x (hsub.subset hx) op' (List.mem_cons_of_mem _ hop')

/-- On a consistent cache whose list is ordered by timestamp, the sweep leaves
exactly the entries that are not expired. -/
theorem mem_ExpireItems_of_time_ordered {c : LRUCache K V} (hc : c.Consistent)
    (hsorted : c.list.Pairwise (fun a b => b.Value.timestamp ≤ a.Value.timestamp))
    (now : Int) (x : Element K V) :
    x ∈ (c.ExpireItems now).list ↔ x ∈ c.list ∧ ¬ c.expired x.Value now := by
  have hrev : c.list.reverse.Pairwise
      (fun a b => (fun e => decide (c.expired e.Value now)) b = true →
        (fun e => decide (c.expired e.Value now)) a = true) := by
    rw [List.pairwise_reverse]
    refine hsorted.imp ?_
    intro a b hab hb
    simp only [decide_eq_true_eq] at hb ⊢
    exact ⟨hb.1, by have := hb.2; omega⟩
  unfold LRUCache.ExpireItems
  rw [expireLoop_eq_removeAll, takeWhile_eq_filter_of_pairwise _ _ hrev, mem_removeAll_list]
  constructor
  · rintro ⟨hx, hne⟩
    refine ⟨hx, fun hexp => ?_⟩
    exact hne x (List.mem_filter.mpr ⟨List.mem_reverse.mpr hx, by simpa using hexp⟩) rfl
  · rintro ⟨hx, hfresh⟩
    refine ⟨hx, ?_⟩
    intro r hr haddr
    obtain ⟨hrmem, hrexp⟩ := List.mem_filter.mp hr
    have := addr_inj hc.addr_nodup hx (List.mem_reverse.mp hrmem) haddr
    rw [this] at hfresh
    exact hfresh (by simpa using hrexp)

end Sweep

/-- C18: the sweep removes every expired entry in a cache filled by `Put`.  For a
cache created with TTL > 0 whose history is a sequence of `Put` and
`ExpireItems` calls with non-decreasing clock readings, after `ExpireItems` at
any clock reading `now`: no entry of the recency list or of the index has an age
`now - timestamp` greater than the TTL, and every entry that was stored with
an age of at most the TTL is still in the list and indexed under its key,
unchanged. -/
theorem sweep_removes_every_expired_entry {K V : Type} [DecidableEq K] (capacity ttl : Int)
    (httl : 0 < ttl) (ops : List (CacheOp K V)) (hput : ∀ op ∈ ops, op.isGet = false)
    (hclock : (ops.map CacheOp.now).Pairwise (fun a b => a ≤ b)) (now : Int) :
    (∀ x ∈ (((NewLRUCache capacity ttl : LRUCache K V).run ops).ExpireItems now).list,
        now - x.Value.timestamp ≤ ttl) ∧
      (∀ k e, mapGet (((NewLRUCache capacity ttl : LRUCache K V).run ops).ExpireItems now).items
          k = some e → now - e.Value.timestamp ≤ ttl) ∧
      (∀ x ∈ ((NewLRUCache capacity ttl : LRUCache K V).run ops).list,
        now - x.Value.timestamp ≤ ttl →
        x ∈ (((NewLRUCache capacity ttl : LRUCache K V).run ops).ExpireItems now).list ∧
          mapGet (((NewLRUCache capacity ttl : LRUCache K V).run ops).ExpireItems now).items
            x.Value.key = some x) := by
  have hr : LRUCache.Reachable capacity ttl ((NewLRUCache capacity ttl : LRUCache K V).run ops) :=
    run_Reachable ops .new
  have hc := Reachable_Consistent hr
  have hc' := Consistent_ExpireItems hc now
  have hfield := (Reachable_fields hr).2
  have hsorted := run_puts_time_ordered ops (NewLRUCache capacity ttl : LRUCache K V)
    (Consistent_New capacity ttl) hput hclock List.Pairwise.nil (fun _ h => by cases h)
  have hmem := mem_ExpireItems_of_time_ordered hc hsorted now
  have hlist : ∀ x ∈ (((NewLRUCache capacity ttl : LRUCache K V).run ops).ExpireItems now).list,
      now - x.Value.timestamp ≤ ttl := by
    intro x hx
    obtain ⟨_, hfresh⟩ := (hmem x).mp hx
    unfold LRUCache.expired at hfresh
    rw [hfield] at hfresh
    by_contra h
    exact hfresh ⟨httl, by omega⟩
  refine ⟨hlist, ?_, ?_⟩
  · intro k e he
    exact hlist e (Consistent_indexed hc' he).1
  · intro x hx hage
    have hin : x ∈ (((NewLRUCache capacity ttl : LRUCache K V).run ops).ExpireItems now).list := by
      refine (hmem x).mpr ⟨hx, ?_⟩
      unfold LRUCache.expired
      rw [hfield]
      intro h
      omega
    exact ⟨hin, hc'.index_complete x hin⟩

/-- Witness of C18, after `TestLRUCache_Expiration`: TTL 1, `key1` and `key2` put
at time 0, sweep at time 2: the cache is empty. -/
theorem sweep_removes_every_expired_entry_witness :
    (((NewLRUCache 2 1 : LRUCache String String).run
        [.put "key1" "value1" 0, .put "key2" "value2" 0]).ExpireItems 2).list = [] ∧
      ∀ x ∈ (((NewLRUCache 2 1 : LRUCache String String).run
        [.put "key1" "value1" 0, .put "key2" "value2" 0]).ExpireItems 2).list,
        2 - x.Value.timestamp ≤ 1 :=
  ⟨by decide,
   (sweep_removes_every_expired_entry 2 1 (by decide)
      [.put "key1" "value1" 0, .put "key2" "value2" 0] (by decide) (by decide) 2).1⟩

/-- Witness of C20: after `Put` of three keys into a cache of capacity 2, a `Get`
and a sweep, the key `key3` is indexed with an entry of the list that carries
`key3`, and the index has as many entries as the list. -/
theorem index_and_list_stay_consistent_witness :
    (⟨2, ⟨"key3", "value3", 2⟩⟩ : Element String String) ∈
        ((NewLRUCache 2 600 : LRUCache String String).run
          [.put "key1" "value1" 0, .put "key2" "value2" 1, .put "key3" "value3" 2,
           .get "key2" 3, .expire 4]).list ∧
      ((NewLRUCache 2 600 : LRUCache String String).run
          [.put "key1" "value1" 0, .put "key2" "value2" 1, .put "key3" "value3" 2,
           .get "key2" 3, .expire 4]).items.length =
        ((NewLRUCache 2 600 : LRUCache String String).run
          [.put "key1" "value1" 0, .put "key2" "value2" 1, .put "key3" "value3" 2,
           .get "key2" 3, .expire 4]).list.length :=
  ⟨((index_and_list_stay_consistent 2 600
      [.put "key1" "value1" 0, .put "key2" "value2" 1, .put "key3" "value3" 2,
       .get "key2" 3, .expire 4]).2.2.1 "key3" ⟨2, ⟨"key3", "value3", 2⟩⟩ (by decide)).1,
   (index_and_list_stay_consistent 2 600
      [.put "key1" "value1" 0, .put "key2" "value2" 1, .put "key3" "value3" 2,
       .get "key2" 3, .expire 4]).2.2.2⟩

end Rbac
